import Mathlib

/-!
Verification of the napari shapes-layer geometric core.

This file gives a shallow embedding of the shape-collection bookkeeping
(`napari/layers/_shapes_layer/shapes_list.py`, `model.py`) over rational
coordinates, and of the path triangulator and ellipse generator
(`gui/layers/shapes_data/shapes_data.py`) over real coordinates, and proves
or refutes the specification claims about them.
-/

namespace Napari

/-- 2D point with rational coordinates (embedding of a numpy float pair
where only exact arithmetic and comparisons matter). -/
abbrev QPt := ℚ × ℚ

/-- RGBA color as a 4-tuple of rationals. -/
abbrev RGBA := ℚ × ℚ × ℚ × ℚ

/-- A mesh triangle: triple of indices into the mesh vertex buffer. -/
abbrev Tri := Nat × Nat × Nat

/-- Apply a function to all three vertex indices of a triangle. -/
def triMap (f : Nat → Nat) (t : Tri) : Tri := (f t.1, f t.2.1, f t.2.2)

/-- Boolean-mask filtering: keep the entries of the second list whose
corresponding tag in the first list satisfies `p` (embeds numpy boolean-mask
selection `xs[p(tags)]` over parallel arrays). -/
def keepWith (p : α → Bool) : List α → List β → List β
  | t :: ts, x :: xs => if p t then x :: keepWith p ts xs else keepWith p ts xs
  | _, _ => []

@[simp] theorem keepWith_nil (p : α → Bool) (xs : List β) :
    keepWith p [] xs = [] := by
  cases xs <;> rfl

@[simp] theorem keepWith_nil_right (p : α → Bool) (ts : List α) :
    keepWith p ts ([] : List β) = [] := by
  cases ts <;> rfl

theorem keepWith_append (p : α → Bool) {ts₁ : List α} {xs₁ : List β}
    (h : ts₁.length = xs₁.length) (ts₂ : List α) (xs₂ : List β) :
    keepWith p (ts₁ ++ ts₂) (xs₁ ++ xs₂) =
      keepWith p ts₁ xs₁ ++ keepWith p ts₂ xs₂ := by
  induction ts₁ generalizing xs₁ with
  | nil => cases xs₁ with
    | nil => simp
    | cons x xs => simp at h
  | cons t ts ih =>
    cases xs₁ with
    | nil => simp at h
    | cons x xs =>
      simp only [List.length_cons, Nat.succ.injEq] at h
      by_cases hp : p t <;>
        simp [keepWith, List.append_eq, hp, ih h]

theorem keepWith_of_all_true (p : α → Bool) :
    ∀ {ts : List α} {xs : List β}, ts.length = xs.length →
    (∀ t ∈ ts, p t = true) → keepWith p ts xs = xs := by
  intro ts
  induction ts with
  | nil => intro xs h _; cases xs with
    | nil => rfl
    | cons x xs => simp at h
  | cons t ts ih =>
    intro xs h hall
    cases xs with
    | nil => simp at h
    | cons x xs =>
      simp only [List.length_cons, Nat.succ.injEq] at h
      have ht := hall t (by simp)
      simp only [keepWith, ht, if_true]
      rw [ih h (fun a ha => hall a (by simp [ha]))]

theorem keepWith_of_all_false (p : α → Bool) :
    ∀ (ts : List α) (xs : List β), (∀ t ∈ ts, p t = false) →
    keepWith p ts xs = [] := by
  intro ts
  induction ts with
  | nil => intro xs _; simp
  | cons t ts ih =>
    intro xs hall
    cases xs with
    | nil => simp
    | cons x xs =>
      have ht := hall t (by simp)
      simp only [keepWith, ht, Bool.false_eq_true, if_false]
      exact ih xs (fun a ha => hall a (by simp [ha]))

theorem keepWith_length_eq_countP (p : α → Bool) :
    ∀ {ts : List α} {xs : List β}, ts.length = xs.length →
    (keepWith p ts xs).length = ts.countP p := by
  intro ts
  induction ts with
  | nil => intro xs _; simp
  | cons t ts ih =>
    intro xs h
    cases xs with
    | nil => simp at h
    | cons x xs =>
      simp only [List.length_cons, Nat.succ.injEq] at h
      by_cases hp : p t <;>
        simp [keepWith, hp, List.countP_cons, ih h]

theorem mem_keepWith (p : α → Bool) :
    ∀ {ts : List α} {xs : List β} {b : β}, b ∈ keepWith p ts xs →
    ∃ t, (t, b) ∈ ts.zip xs ∧ p t = true := by
  intro ts
  induction ts with
  | nil => intro xs b h; simp at h
  | cons t ts ih =>
    intro xs b h
    cases xs with
    | nil => simp [keepWith_nil_right] at h
    | cons x xs =>
      simp only [keepWith] at h
      by_cases hp : p t
      · simp only [hp, if_true, List.mem_cons] at h
        rcases h with rfl | h
        · exact ⟨t, by simp, hp⟩
        · obtain ⟨u, hu, hpu⟩ := ih h
          exact ⟨u, by simp [hu], hpu⟩
      · simp only [hp, Bool.false_eq_true, if_false] at h
        obtain ⟨u, hu, hpu⟩ := ih h
        exact ⟨u, by simp [hu], hpu⟩

/-- A single shape as consumed by `ShapesList.add`: its raw data vertices plus
the cached stroke/fill mesh data and style attributes (the interface of the
`Shape` class that `shapes_list.py` reads). -/
structure NShape where
  data : List QPt
  edgeVertices : List QPt
  edgeOffsets : List QPt
  edgeTriangles : List Tri
  faceVertices : List QPt
  faceTriangles : List Tri
  edgeWidth : ℚ
  edgeColor : RGBA
  faceColor : RGBA
  zOrder : Int
  deriving DecidableEq, Inhabited

/-- The flattened parallel arrays of `ShapesList`. -/
structure SLState where
  shapes : List NShape
  vertices : List QPt
  index : List Nat
  zOrder : List Int
  meshVertices : List QPt
  meshVerticesIndex : List (Nat × Nat)
  meshTriangles : List Tri
  meshTrianglesIndex : List (Nat × Nat)
  meshTrianglesColors : List RGBA
  meshTrianglesZ : List Int
  deriving DecidableEq, Inhabited

/-- `ShapesList.add`: append a shape (or overwrite the slot `shapeIndex`) and
extend every flattened array, first with the shape's edge mesh (vertices
computed as `_edge_vertices + edge_width * _edge_offsets`, triangles shifted
by the current mesh size) and then with its face mesh. -/
def addShape (st : SLState) (sh : NShape) (shapeIndex : Option Nat) : SLState :=
  let n := match shapeIndex with | none => st.shapes.length | some k => k
  let shapes1 := match shapeIndex with
    | none => st.shapes ++ [sh]
    | some k => st.shapes.set k sh
  let zOrder1 := match shapeIndex with
    | none => st.zOrder ++ [sh.zOrder]
    | some k => st.zOrder.set k sh.zOrder
  let m := st.meshVertices.length
  let everts := List.zipWith
    (fun (v o : QPt) => (v.1 + sh.edgeWidth * o.1, v.2 + sh.edgeWidth * o.2))
    sh.edgeVertices sh.edgeOffsets
  let etris := sh.edgeTriangles.map (triMap (· + m))
  let m2 := m + everts.length
  let ftris := sh.faceTriangles.map (triMap (· + m2))
  { shapes := shapes1
    vertices := st.vertices ++ sh.data
    index := st.index ++ List.replicate sh.data.length n
    zOrder := zOrder1
    meshVertices := st.meshVertices ++ everts ++ sh.faceVertices
    meshVerticesIndex := st.meshVerticesIndex
      ++ List.replicate everts.length (n, 1)
      ++ List.replicate sh.faceVertices.length (n, 0)
    meshTriangles := st.meshTriangles ++ etris ++ ftris
    meshTrianglesIndex := st.meshTrianglesIndex
      ++ List.replicate etris.length (n, 1)
      ++ List.replicate ftris.length (n, 0)
    meshTrianglesColors := st.meshTrianglesColors
      ++ List.replicate etris.length sh.edgeColor
      ++ List.replicate ftris.length sh.faceColor
    meshTrianglesZ := st.meshTrianglesZ
      ++ List.replicate etris.length sh.zOrder
      ++ List.replicate ftris.length sh.zOrder }

/-- `ShapesList.remove_one`: drop the raw vertices, mesh triangles and mesh
vertices tagged with shape `i`; shift every surviving triangle index that is
strictly greater than the first removed mesh-vertex position down by the
number of removed mesh vertices; when `renumber` is true also delete the
shape and its z-order slot and decrement every stored shape index above `i`.
(When shape `i` owns no mesh vertices the original `indices[0]` raises in
numpy; here `List.findIdx` returns the list length and the shift is a no-op —
all claims are invoked with a nonempty vertex block.) -/
def removeOne (st : SLState) (i : Nat) (renumber : Bool) : SLState :=
  let keepV : Nat → Bool := fun x => x != i
  let keepT : Nat × Nat → Bool := fun t => t.1 != i
  let vertices1 := keepWith keepV st.index st.vertices
  let index1 := st.index.filter keepV
  let tris1 := keepWith keepT st.meshTrianglesIndex st.meshTriangles
  let cols1 := keepWith keepT st.meshTrianglesIndex st.meshTrianglesColors
  let tz1 := keepWith keepT st.meshTrianglesIndex st.meshTrianglesZ
  let tIdx1 := st.meshTrianglesIndex.filter keepT
  let mverts1 := keepWith keepT st.meshVerticesIndex st.meshVertices
  let mvIdx1 := st.meshVerticesIndex.filter keepT
  let first := st.meshVerticesIndex.findIdx (fun t => t.1 == i)
  let cnt := st.meshVerticesIndex.countP (fun t => t.1 == i)
  let shiftV : Nat → Nat := fun v => if first < v then v - cnt else v
  let tris2 := tris1.map (triMap shiftV)
  if renumber then
    { shapes := st.shapes.eraseIdx i
      vertices := vertices1
      index := index1.map (fun x => if i < x then x - 1 else x)
      zOrder := st.zOrder.eraseIdx i
      meshVertices := mverts1
      meshVerticesIndex := mvIdx1.map (fun t => if i < t.1 then (t.1 - 1, t.2) else t)
      meshTriangles := tris2
      meshTrianglesIndex := tIdx1.map (fun t => if i < t.1 then (t.1 - 1, t.2) else t)
      meshTrianglesColors := cols1
      meshTrianglesZ := tz1 }
  else
    { shapes := st.shapes
      vertices := vertices1
      index := index1
      zOrder := st.zOrder
      meshVertices := mverts1
      meshVerticesIndex := mvIdx1
      meshTriangles := tris2
      meshTrianglesIndex := tIdx1
      meshTrianglesColors := cols1
      meshTrianglesZ := tz1 }

theorem map_eq_self_of {f : α → α} :
    ∀ {l : List α}, (∀ a ∈ l, f a = a) → l.map f = l := by
  intro l
  induction l with
  | nil => intro _; rfl
  | cons a l ih =>
    intro h
    simp only [List.map_cons, h a (by simp)]
    rw [ih (fun b hb => h b (by simp [hb]))]

theorem findIdx_append_of_all_false {p : α → Bool} :
    ∀ {l₁ : List α}, (∀ x ∈ l₁, p x = false) → ∀ (l₂ : List α),
    (l₁ ++ l₂).findIdx p = l₁.length + l₂.findIdx p := by
  intro l₁
  induction l₁ with
  | nil => intro _ l₂; simp
  | cons a l ih =>
    intro h l₂
    have ha := h a (by simp)
    simp only [List.cons_append, List.findIdx_cons, ha, cond_false,
      List.length_cons]
    rw [ih (fun b hb => h b (by simp [hb])) l₂]
    omega

theorem countP_replicate (p : α → Bool) (k : Nat) (a : α) :
    (List.replicate k a).countP p = if p a then k else 0 := by
  induction k with
  | zero => simp
  | succ k ih =>
    simp only [List.replicate_succ, List.countP_cons, ih]
    by_cases h : p a <;> simp [h]

theorem findIdx_cons_of_true {p : α → Bool} {a : α} (h : p a = true)
    (l : List α) : (a :: l).findIdx p = 0 := by
  simp [List.findIdx_cons, h]

/-- Well-formedness of a `ShapesList` state: parallel arrays have matching
lengths, all stored shape indices are in range, and all triangle vertex
indices are valid. Every state built by `add`/`remove_one` satisfies this. -/
structure SLWF (st : SLState) : Prop where
  vlen : st.index.length = st.vertices.length
  zolen : st.zOrder.length = st.shapes.length
  mvlen : st.meshVerticesIndex.length = st.meshVertices.length
  tlen : st.meshTrianglesIndex.length = st.meshTriangles.length
  clen : st.meshTrianglesIndex.length = st.meshTrianglesColors.length
  zlen : st.meshTrianglesIndex.length = st.meshTrianglesZ.length
  idx : ∀ x ∈ st.index, x < st.shapes.length
  mvidx : ∀ t ∈ st.meshVerticesIndex, t.1 < st.shapes.length
  tidx : ∀ t ∈ st.meshTrianglesIndex, t.1 < st.shapes.length
  tri : ∀ t ∈ st.meshTriangles, t.1 < st.meshVertices.length ∧
    t.2.1 < st.meshVertices.length ∧ t.2.2 < st.meshVertices.length

/-- C2: adding a shape and then removing it at the assigned index restores
every flattened array of the collection to its pre-add content. -/
theorem add_remove_roundtrip (st : SLState) (sh : NShape) (hwf : SLWF st)
    (hoff : sh.edgeOffsets.length = sh.edgeVertices.length)
    (hne : 0 < sh.edgeVertices.length) :
    removeOne (addShape st sh none) st.shapes.length true = st := by
  obtain ⟨hvlen, hzolen, hmvlen, htlen, hclen, hzlen, hidx, hmvidx, htidx, htri⟩ := hwf
  rcases st with ⟨shs, vs, idx, zs, mv, mvi, mt, mti, mtc, mtz⟩
  simp only at hvlen hzolen hmvlen htlen hclen hzlen hidx hmvidx htidx htri
  set n := shs.length with hn
  set everts := List.zipWith
    (fun (v o : QPt) => (v.1 + sh.edgeWidth * o.1, v.2 + sh.edgeWidth * o.2))
    sh.edgeVertices sh.edgeOffsets with hev
  have hel : everts.length = sh.edgeVertices.length := by
    simp [hev, hoff]
  set et := sh.edgeTriangles.map (triMap (· + mv.length)) with het
  set ft := sh.faceTriangles.map (triMap (· + (mv.length + everts.length)))
    with hft
  have keepT_true : ∀ t : Nat × Nat, t.1 < n → ((t.1 != n) = true) := by
    intro t ht; simp only [bne_iff_ne, ne_eq]; omega
  have keepN_true : ∀ x : Nat, x < n → ((x != n) = true) := by
    intro x hx; simp only [bne_iff_ne, ne_eq]; omega
  -- the first removed mesh-vertex position and the removed count
  have hmviF : ∀ t ∈ mvi, (fun (t : Nat × Nat) => t.1 == n) t = false := by
    intro t ht
    have := hmvidx t ht
    simp only [beq_eq_false_iff_ne, ne_eq]
    omega
  have hfind : (mvi ++ (List.replicate everts.length ((n : Nat), 1)
      ++ List.replicate sh.faceVertices.length (n, 0))).findIdx
        (fun (t : Nat × Nat) => t.1 == n) = mvi.length := by
    rw [findIdx_append_of_all_false hmviF]
    obtain ⟨k, hk⟩ := Nat.exists_eq_add_of_lt (hel ▸ hne)
    rw [show everts.length = k + 1 by omega, List.replicate_succ,
      List.cons_append, findIdx_cons_of_true (by simp)]
    omega
  have hcnt : (mvi ++ (List.replicate everts.length ((n : Nat), 1)
      ++ List.replicate sh.faceVertices.length (n, 0))).countP
        (fun (t : Nat × Nat) => t.1 == n) = everts.length + sh.faceVertices.length := by
    rw [List.countP_append, List.countP_append, countP_replicate,
      countP_replicate]
    have h0 : mvi.countP (fun (t : Nat × Nat) => t.1 == n) = 0 := by
      rw [List.countP_eq_zero]
      intro t ht
      simpa using hmviF t ht
    simp [h0]
  simp only [addShape, removeOne, ← hev, ← het, ← hft, if_true, ← hn]
  rw [List.append_assoc mvi, List.append_assoc mti, List.append_assoc mv,
    List.append_assoc mt, List.append_assoc mtc, List.append_assoc mtz]
  simp only [SLState.mk.injEq]
  have hrepV : keepWith (fun x => x != n)
      (List.replicate sh.data.length n) sh.data = [] :=
    keepWith_of_all_false _ _ _ (fun x hx => by
      have hx' := List.eq_of_mem_replicate hx
      subst hx'; simp)
  have hrepVI : ∀ {γ : Type} (e f : Nat) (xs : List γ),
      keepWith (fun t : Nat × Nat => t.1 != n)
      (List.replicate e ((n : Nat), 1) ++ List.replicate f (n, 0)) xs = [] := by
    intro γ e f xs
    refine keepWith_of_all_false _ _ _ (fun t ht => ?_)
    rcases List.mem_append.mp ht with h | h <;>
    · have := List.eq_of_mem_replicate h
      subst this; simp
  have hfiltVI : ∀ (e f : Nat), (List.replicate e ((n : Nat), 1)
      ++ List.replicate f (n, 0)).filter (fun (t : Nat × Nat) => t.1 != n) = [] := by
    intro e f
    rw [List.filter_append, List.filter_replicate, List.filter_replicate]
    simp
  refine ⟨?_, ?_, ?_, ?_, ?_, ?_, ?_, ?_, ?_, ?_⟩
  · rw [List.eraseIdx_append_of_length_le (Nat.le_refl shs.length)]
    simp
  · rw [keepWith_append _ hvlen,
      keepWith_of_all_true _ hvlen (fun x hx => keepN_true x (hidx x hx)),
      hrepV, List.append_nil]
  · rw [List.filter_append, List.filter_eq_self.mpr
      (fun x hx => keepN_true x (hidx x hx)), List.filter_replicate]
    simp only [bne_self_eq_false, Bool.false_eq_true, if_false, List.append_nil]
    exact map_eq_self_of (fun x hx => by
      have := hidx x hx
      rw [if_neg]; omega)
  · rw [List.eraseIdx_append_of_length_le (Nat.le_of_eq hzolen)]
    simp [hzolen]
  · rw [keepWith_append _ hmvlen,
      keepWith_of_all_true _ hmvlen
        (fun t ht => keepT_true t (hmvidx t ht)),
      hrepVI, List.append_nil]
  · rw [List.filter_append, List.filter_eq_self.mpr
      (fun t ht => keepT_true t (hmvidx t ht)),
      hfiltVI, List.append_nil]
    exact map_eq_self_of (fun t ht => by
      have := hmvidx t ht
      rw [if_neg]; omega)
  · rw [keepWith_append _ htlen,
      keepWith_of_all_true _ htlen
        (fun t ht => keepT_true t (htidx t ht)),
      hrepVI, List.append_nil, hfind, hcnt]
    exact map_eq_self_of (fun t ht => by
      obtain ⟨h1, h2, h3⟩ := htri t ht
      simp only [triMap]
      rw [if_neg (by omega), if_neg (by omega), if_neg (by omega)])
  · rw [List.filter_append, List.filter_eq_self.mpr
      (fun t ht => keepT_true t (htidx t ht)),
      hfiltVI, List.append_nil]
    exact map_eq_self_of (fun t ht => by
      have := htidx t ht
      rw [if_neg]; omega)
  · rw [keepWith_append _ hclen,
      keepWith_of_all_true _ hclen
        (fun t ht => keepT_true t (htidx t ht)),
      hrepVI _ _ _, List.append_nil]
  · rw [keepWith_append _ hzlen,
      keepWith_of_all_true _ hzlen
        (fun t ht => keepT_true t (htidx t ht)),
      hrepVI, List.append_nil]

/-- The empty collection state (`ShapesList.__init__` arrays). -/
def emptySL : SLState := ⟨[], [], [], [], [], [], [], [], [], []⟩

/-- A small concrete well-formed shape used as a test input. -/
def exShape : NShape :=
  { data := [(0, 0), (1, 0)]
    edgeVertices := [(0, 0), (1, 0), (0, 1)]
    edgeOffsets := [(0, 0), (0, 0), (0, 0)]
    edgeTriangles := [(0, 1, 2)]
    faceVertices := []
    faceTriangles := []
    edgeWidth := 1
    edgeColor := (0, 0, 0, 1)
    faceColor := (1, 1, 1, 1)
    zOrder := 0 }

/-- Witness for C2: the round trip at a concrete state and shape. -/
theorem add_remove_roundtrip_witness :
    (SLWF emptySL ∧ exShape.edgeOffsets.length = exShape.edgeVertices.length ∧
      0 < exShape.edgeVertices.length) ∧
    removeOne (addShape emptySL exShape none) emptySL.shapes.length true
      = emptySL :=
  ⟨⟨⟨by decide, by decide, by decide, by decide, by decide, by decide,
      by decide, by decide, by decide, by decide⟩, by decide, by decide⟩,
    add_remove_roundtrip emptySL exShape
      ⟨by decide, by decide, by decide, by decide, by decide, by decide,
       by decide, by decide, by decide, by decide⟩ (by decide) (by decide)⟩

/-- C1: removing shape `i` with renumbering decrements every surviving stored
shape index above `i`, shifts every surviving triangle vertex index lying past
the start of the removed contiguous mesh-vertex block down by the size of the
block, and leaves every surviving triangle vertex index strictly below the
number of remaining mesh vertices. -/
theorem remove_one_renumber_invariant (st : SLState) (i : Nat)
    (A B C : List (Nat × Nat))
    (hdec : st.meshVerticesIndex = A ++ B ++ C)
    (hA : ∀ t ∈ A, t.1 ≠ i) (hB : ∀ t ∈ B, t.1 = i) (hBne : B ≠ [])
    (hC : ∀ t ∈ C, t.1 ≠ i)
    (hmvlen : st.meshVerticesIndex.length = st.meshVertices.length)
    (htlen : st.meshTrianglesIndex.length = st.meshTriangles.length)
    (hown : ∀ q ∈ st.meshTrianglesIndex.zip st.meshTriangles,
      ∀ v ∈ [q.2.1, q.2.2.1, q.2.2.2], v < st.meshVerticesIndex.length ∧
        (st.meshVerticesIndex.getD v (0, 0)).1 = q.1.1) :
    ((removeOne st i true).index
        = (st.index.filter (fun x => x != i)).map
          (fun x => if i < x then x - 1 else x)) ∧
    ((removeOne st i true).meshVerticesIndex
        = (st.meshVerticesIndex.filter (fun t => t.1 != i)).map
          (fun t => if i < t.1 then (t.1 - 1, t.2) else t)) ∧
    ((removeOne st i true).meshTrianglesIndex
        = (st.meshTrianglesIndex.filter (fun t => t.1 != i)).map
          (fun t => if i < t.1 then (t.1 - 1, t.2) else t)) ∧
    ((removeOne st i true).meshTriangles
        = (keepWith (fun t : Nat × Nat => t.1 != i)
            st.meshTrianglesIndex st.meshTriangles).map
          (triMap (fun v => if A.length < v then v - B.length else v))) ∧
    (∀ t ∈ (removeOne st i true).meshTriangles,
      t.1 < (removeOne st i true).meshVertices.length ∧
      t.2.1 < (removeOne st i true).meshVertices.length ∧
      t.2.2 < (removeOne st i true).meshVertices.length) := by
  have hfirst : st.meshVerticesIndex.findIdx
      (fun t => t.1 == i) = A.length := by
    rw [hdec, List.append_assoc,
      findIdx_append_of_all_false
        (fun t ht => by simp only [beq_eq_false_iff_ne, ne_eq]; exact hA t ht)]
    cases B with
    | nil => exact absurd rfl hBne
    | cons b B' =>
      rw [List.cons_append,
        findIdx_cons_of_true (by simp [hB b (by simp)])]
      omega
  have hcnt : st.meshVerticesIndex.countP (fun t => t.1 == i) = B.length := by
    rw [hdec, List.append_assoc, List.countP_append, List.countP_append]
    have h0A : A.countP (fun t : Nat × Nat => t.1 == i) = 0 :=
      List.countP_eq_zero.mpr (fun t ht => by
        simp only [beq_iff_eq]; exact hA t ht)
    have h0C : C.countP (fun t : Nat × Nat => t.1 == i) = 0 :=
      List.countP_eq_zero.mpr (fun t ht => by
        simp only [beq_iff_eq]; exact hC t ht)
    have hBC : B.countP (fun t : Nat × Nat => t.1 == i) = B.length :=
      List.countP_eq_length.mpr (fun t ht => by
        simp only [beq_iff_eq]; exact hB t ht)
    omega
  have hRmvlen : (keepWith (fun t : Nat × Nat => t.1 != i)
      st.meshVerticesIndex st.meshVertices).length = A.length + C.length := by
    rw [keepWith_length_eq_countP _ hmvlen, hdec, List.append_assoc,
      List.countP_append, List.countP_append]
    have h1 : A.countP (fun t : Nat × Nat => t.1 != i) = A.length :=
      List.countP_eq_length.mpr (fun t ht => by
        simp only [bne_iff_ne, ne_eq]; exact hA t ht)
    have h2 : B.countP (fun t : Nat × Nat => t.1 != i) = 0 :=
      List.countP_eq_zero.mpr (fun t ht => by
        simp only [bne_iff_ne, ne_eq, not_not]; exact hB t ht)
    have h3 : C.countP (fun t : Nat × Nat => t.1 != i) = C.length :=
      List.countP_eq_length.mpr (fun t ht => by
        simp only [bne_iff_ne, ne_eq]; exact hC t ht)
    omega
  have hmvitot : st.meshVerticesIndex.length
      = A.length + B.length + C.length := by
    rw [hdec]; simp; omega
  refine ⟨?_, ?_, ?_, ?_, ?_⟩
  · simp [removeOne]
  · simp [removeOne]
  · simp [removeOne]
  · simp only [removeOne, if_true, hfirst, hcnt]
  · intro t ht
    simp only [removeOne, if_true] at ht ⊢
    rw [hfirst, hcnt] at ht
    rw [hRmvlen]
    obtain ⟨tr, htr, hmap⟩ := List.mem_map.mp ht
    obtain ⟨tg, hzip, hkeep⟩ := mem_keepWith _ htr
    have htg : tg.1 ≠ i := by simpa [bne_iff_ne] using hkeep
    have hq := hown (tg, tr) hzip
    have hshift : ∀ v, v < st.meshVerticesIndex.length →
        (st.meshVerticesIndex.getD v (0, 0)).1 = tg.1 →
        (if A.length < v then v - B.length else v) < A.length + C.length := by
      intro v hv hgv
      by_cases hcase : v < A.length
      · rw [if_neg (by omega)]
        omega
      · have hge : A.length + B.length ≤ v := by
          by_contra hlt
          push_neg at hlt
          have hvB : (st.meshVerticesIndex.getD v (0, 0)).1 = i := by
            rw [hdec, List.append_assoc,
              List.getD_append_right _ _ _ _ (by omega),
              List.getD_append _ _ _ _ (by omega)]
            have hmem : B.getD (v - A.length) (0, 0) ∈ B := by
              have hlt2 : v - A.length < B.length := by omega
              rw [List.getD_eq_getElem B (0, 0) hlt2]
              exact List.getElem_mem hlt2
            exact hB _ hmem
          exact htg (hvB ▸ hgv.symm)
        have hBpos : 0 < B.length := List.length_pos.mpr hBne
        rw [if_pos (by omega)]
        omega
    subst hmap
    obtain ⟨hv1, hg1⟩ := hq tr.1 (by simp)
    obtain ⟨hv2, hg2⟩ := hq tr.2.1 (by simp)
    obtain ⟨hv3, hg3⟩ := hq tr.2.2 (by simp)
    exact ⟨hshift _ hv1 hg1, hshift _ hv2 hg2, hshift _ hv3 hg3⟩

/-- A concrete two-shape collection state used as a test input. -/
def exSL2 : SLState :=
  { shapes := [exShape, exShape]
    vertices := [(0, 0), (1, 0), (0, 0), (1, 0)]
    index := [0, 0, 1, 1]
    zOrder := [0, 0]
    meshVertices := [(0, 0), (1, 0), (0, 1), (2, 0), (3, 0), (2, 1)]
    meshVerticesIndex := [(0, 1), (0, 1), (0, 1), (1, 1), (1, 1), (1, 1)]
    meshTriangles := [(0, 1, 2), (3, 4, 5)]
    meshTrianglesIndex := [(0, 1), (1, 1)]
    meshTrianglesColors := [(0, 0, 0, 1), (0, 0, 0, 1)]
    meshTrianglesZ := [0, 0] }

/-- Witness for C1: removal of shape 0 from the concrete two-shape state. -/
theorem remove_one_renumber_invariant_witness :
    (exSL2.meshVerticesIndex
        = [] ++ [((0 : Nat), (1 : Nat)), (0, 1), (0, 1)]
          ++ [((1 : Nat), (1 : Nat)), (1, 1), (1, 1)] ∧
      (∀ t ∈ ([] : List (Nat × Nat)), t.1 ≠ 0) ∧
      (∀ t ∈ [((0 : Nat), (1 : Nat)), (0, 1), (0, 1)], t.1 = 0) ∧
      [((0 : Nat), (1 : Nat)), (0, 1), (0, 1)] ≠ [] ∧
      (∀ t ∈ [((1 : Nat), (1 : Nat)), (1, 1), (1, 1)], t.1 ≠ 0) ∧
      exSL2.meshVerticesIndex.length = exSL2.meshVertices.length ∧
      exSL2.meshTrianglesIndex.length = exSL2.meshTriangles.length ∧
      (∀ q ∈ exSL2.meshTrianglesIndex.zip exSL2.meshTriangles,
        ∀ v ∈ [q.2.1, q.2.2.1, q.2.2.2], v < exSL2.meshVerticesIndex.length ∧
          (exSL2.meshVerticesIndex.getD v (0, 0)).1 = q.1.1)) ∧
    (((removeOne exSL2 0 true).index
        = (exSL2.index.filter (fun x => x != 0)).map
          (fun x => if 0 < x then x - 1 else x)) ∧
      ((removeOne exSL2 0 true).meshVerticesIndex
        = (exSL2.meshVerticesIndex.filter (fun t => t.1 != 0)).map
          (fun t => if 0 < t.1 then (t.1 - 1, t.2) else t)) ∧
      ((removeOne exSL2 0 true).meshTrianglesIndex
        = (exSL2.meshTrianglesIndex.filter (fun t => t.1 != 0)).map
          (fun t => if 0 < t.1 then (t.1 - 1, t.2) else t)) ∧
      ((removeOne exSL2 0 true).meshTriangles
        = (keepWith (fun t : Nat × Nat => t.1 != 0)
            exSL2.meshTrianglesIndex exSL2.meshTriangles).map
          (triMap (fun v => if List.length
              ([] : List (Nat × Nat)) < v then
            v - List.length [((0 : Nat), (1 : Nat)), (0, 1), (0, 1)] else v))) ∧
      (∀ t ∈ (removeOne exSL2 0 true).meshTriangles,
        t.1 < (removeOne exSL2 0 true).meshVertices.length ∧
        t.2.1 < (removeOne exSL2 0 true).meshVertices.length ∧
        t.2.2 < (removeOne exSL2 0 true).meshVertices.length)) :=
  ⟨⟨by decide, by decide, by decide, by decide, by decide, by decide,
    by decide, by decide⟩,
    remove_one_renumber_invariant exSL2 0 []
      [((0 : Nat), (1 : Nat)), (0, 1), (0, 1)]
      [((1 : Nat), (1 : Nat)), (1, 1), (1, 1)]
      (by decide) (by decide) (by decide) (by decide) (by decide)
      (by decide) (by decide) (by decide)⟩

/-- 2D cross product (z-component) of rational vectors. -/
def cross2q (a b : QPt) : ℚ := a.1 * b.2 - a.2 * b.1

/-- Modelled from the spec: `shape_util.inside_triangles` (the file
`shape_util.py` is absent from the sources) — "for a batch of triangles,
returns which contain the point using a fixed 2D barycentric/sign test".
The caller passes triangles already translated by `-point`, so this tests
containment of the origin: the three edge-versus-vertex cross products must
all be nonnegative or all nonpositive. -/
def insideTriangle (a b c : QPt) : Bool :=
  let d1 := cross2q (b.1 - a.1, b.2 - a.2) (-a.1, -a.2)
  let d2 := cross2q (c.1 - b.1, c.2 - b.2) (-b.1, -b.2)
  let d3 := cross2q (a.1 - c.1, a.2 - c.2) (-c.1, -c.2)
  (decide (0 ≤ d1) && decide (0 ≤ d2) && decide (0 ≤ d3)) ||
    (decide (d1 ≤ 0) && decide (d2 ≤ 0) && decide (d3 ≤ 0))

/-- Whether mesh triangle `t` of the collection, translated by `-p`,
contains the origin (`inside_triangles(triangles - indices[:2])`). -/
def triContains (st : SLState) (t : Tri) (p : QPt) : Bool :=
  let v := fun j => st.meshVertices.getD j (0, 0)
  insideTriangle ((v t.1).1 - p.1, (v t.1).2 - p.2)
    ((v t.2.1).1 - p.1, (v t.2.1).2 - p.2)
    ((v t.2.2).1 - p.1, (v t.2.2).2 - p.2)

/-- The z-order attribute of shape `m` in the collection. -/
def zOf (st : SLState) (m : Nat) : Int := (st.shapes.getD m default).zOrder

/-- `Shapes._shape_at` in the no-selection case: collect the shape indices of
all mesh triangles (fill and edge) containing the query point and return the
topmost.  Modelled from the spec: the absent `ShapeList` (`shape_list.py`)
maintains `_z_order` as a derived front-to-back order of shape indices
(position 0 = drawn topmost); `_shape_at` ranks every candidate shape by
`z_list.index(m)` and returns a candidate of minimal rank. -/
def shape_at (st : SLState) (zperm : List Nat) (p : QPt) : Option Nat :=
  let cand := ((st.meshTrianglesIndex.zip st.meshTriangles).filter
    (fun q => triContains st q.2 p)).map (fun q => q.1.1)
  match cand with
  | [] => none
  | s :: rest => some (rest.foldl
      (fun best x =>
        if List.indexOf x zperm < List.indexOf best zperm then x else best) s)

theorem foldl_min_by (f : Nat → Nat) :
    ∀ (l : List Nat) (a : Nat),
      (l.foldl (fun best x => if f x < f best then x else best) a) ∈ a :: l ∧
      ∀ x ∈ a :: l,
        f (l.foldl (fun best x => if f x < f best then x else best) a) ≤ f x := by
  intro l
  induction l with
  | nil =>
    intro a
    constructor
    · simp
    · intro x hx
      simp only [List.mem_singleton] at hx
      subst hx
      simp
  | cons b l ih =>
    intro a
    simp only [List.foldl_cons]
    obtain ⟨hmem, hmin⟩ := ih (if f b < f a then b else a)
    have hle_a : f (if f b < f a then b else a) ≤ f a := by
      by_cases hc : f b < f a <;> simp [hc] <;> omega
    have hle_b : f (if f b < f a then b else a) ≤ f b := by
      by_cases hc : f b < f a <;> simp [hc] <;> omega
    have hor : (if f b < f a then b else a) = a ∨
        (if f b < f a then b else a) = b := by
      by_cases hc : f b < f a <;> simp [hc]
    have hres := hmin (if f b < f a then b else a) (by simp)
    constructor
    · rcases List.mem_cons.mp hmem with h | h
      · rw [h]
        rcases hor with h2 | h2 <;> rw [h2] <;> simp
      · simp [h]
    · intro x hx
      rcases List.mem_cons.mp hx with h | hx'
      · subst h
        exact le_trans hres hle_a
      · rcases List.mem_cons.mp hx' with h | h
        · subst h
          exact le_trans hres hle_b
        · exact hmin x (by simp [h])

/-- C3: with no shapes selected, `_shape_at` returns a shape whose fill or
edge mesh contains the point and whose z-order is maximal among all shapes
whose mesh contains the point, and returns none exactly when no mesh
triangle contains the point.  The hypothesis says the derived `_z_order`
front-to-back order is a permutation of the shape indices sorted by
descending per-shape z-order. -/
theorem shape_at_topmost (st : SLState) (zperm : List Nat) (p : QPt)
    (hperm : zperm.Perm (List.range st.shapes.length))
    (hsorted : zperm.Pairwise (fun x y => zOf st y ≤ zOf st x))
    (htags : ∀ t ∈ st.meshTrianglesIndex, t.1 < st.shapes.length) :
    (shape_at st zperm p = none ↔
      ∀ q ∈ st.meshTrianglesIndex.zip st.meshTriangles,
        triContains st q.2 p = false) ∧
    (∀ s, shape_at st zperm p = some s →
      (∃ q ∈ st.meshTrianglesIndex.zip st.meshTriangles,
        q.1.1 = s ∧ triContains st q.2 p = true) ∧
      (∀ q ∈ st.meshTrianglesIndex.zip st.meshTriangles,
        triContains st q.2 p = true → zOf st q.1.1 ≤ zOf st s)) := by
  set n := st.shapes.length with hn
  have hmemz : ∀ x, x < n → x ∈ zperm := by
    intro x hx
    rw [hperm.mem_iff]
    simpa using hx
  have hrank : ∀ x y, x < n → y < n →
      List.indexOf x zperm ≤ List.indexOf y zperm → zOf st y ≤ zOf st x := by
    intro x y hx hy hle
    have hxm := hmemz x hx
    have hym := hmemz y hy
    have hxl : List.indexOf x zperm < zperm.length :=
      List.indexOf_lt_length.mpr hxm
    have hyl : List.indexOf y zperm < zperm.length :=
      List.indexOf_lt_length.mpr hym
    rcases Nat.lt_or_ge (List.indexOf x zperm) (List.indexOf y zperm) with
      hlt | hge
    · have := (List.pairwise_iff_get.mp hsorted) ⟨_, hxl⟩ ⟨_, hyl⟩ hlt
      rwa [List.indexOf_get hxl, List.indexOf_get hyl] at this
    · have heq : List.indexOf x zperm = List.indexOf y zperm := by omega
      have : x = y := by
        have h1 := List.indexOf_get hxl
        have h2 := List.indexOf_get hyl
        have h3 : (⟨List.indexOf x zperm, hxl⟩ : Fin zperm.length)
            = ⟨List.indexOf y zperm, hyl⟩ := Fin.ext heq
        rw [← h1, ← h2, h3]
      subst this
      exact le_refl _
  set cand := ((st.meshTrianglesIndex.zip st.meshTriangles).filter
    (fun q => triContains st q.2 p)).map (fun q => q.1.1) with hcand
  have hmemcand : ∀ x ∈ cand,
      ∃ q ∈ st.meshTrianglesIndex.zip st.meshTriangles,
        q.1.1 = x ∧ triContains st q.2 p = true := by
    intro x hx
    obtain ⟨q, hq, hqx⟩ := List.mem_map.mp hx
    obtain ⟨hqz, hqc⟩ := List.mem_filter.mp hq
    exact ⟨q, hqz, hqx, hqc⟩
  have hcandmem : ∀ q ∈ st.meshTrianglesIndex.zip st.meshTriangles,
      triContains st q.2 p = true → q.1.1 ∈ cand := by
    intro q hq hc
    exact List.mem_map.mpr ⟨q, List.mem_filter.mpr ⟨hq, hc⟩, rfl⟩
  have hcandlt : ∀ x ∈ cand, x < n := by
    intro x hx
    obtain ⟨q, hq, hqx, _⟩ := hmemcand x hx
    have := (List.mem_zip hq).1
    subst hqx
    exact htags q.1 this
  constructor
  · constructor
    · intro hnone q hq
      by_contra hc
      have hc' : triContains st q.2 p = true := by
        cases h : triContains st q.2 p
        · exact absurd h hc
        · rfl
      have : q.1.1 ∈ cand := hcandmem q hq hc'
      rw [shape_at, ← hcand] at hnone
      cases hc2 : cand with
      | nil => rw [hc2] at this; simp at this
      | cons a l => rw [hc2] at hnone; simp at hnone
    · intro hall
      rw [shape_at, ← hcand]
      cases hc2 : cand with
      | nil => rfl
      | cons a l =>
        exfalso
        have ha : a ∈ cand := by rw [hc2]; simp
        obtain ⟨q, hq, _, hqc⟩ := hmemcand a ha
        rw [hall q hq] at hqc
        exact Bool.false_ne_true hqc
  · intro s hs
    rw [shape_at, ← hcand] at hs
    cases hc2 : cand with
    | nil => rw [hc2] at hs; simp at hs
    | cons a l =>
      rw [hc2] at hs
      simp only [Option.some.injEq] at hs
      obtain ⟨hmem, hmin⟩ :=
        foldl_min_by (fun x => List.indexOf x zperm) l a
      rw [hs] at hmem hmin
      have hscand : s ∈ cand := by rw [hc2]; exact hmem
      refine ⟨hmemcand s hscand, ?_⟩
      intro q hq hqc
      have hqcand : q.1.1 ∈ cand := hcandmem q hq hqc
      have hqrank : List.indexOf s zperm ≤ List.indexOf q.1.1 zperm := by
        apply hmin
        rw [← hc2]
        exact hqcand
      exact hrank s q.1.1 (hcandlt s hscand) (hcandlt q.1.1 hqcand) hqrank

/-- Shape with z-order 5 used in the hit-test example. -/
def exShape5 : NShape := { exShape with zOrder := 5 }

/-- Two shapes with overlapping triangle meshes; shape 1 sits on top. -/
def exSL3 : SLState :=
  { shapes := [exShape, exShape5]
    vertices := [(0, 0), (1, 0), (0, 0), (1, 0)]
    index := [0, 0, 1, 1]
    zOrder := [0, 5]
    meshVertices := [(-1, -1), (2, -1), (0, 2), (-2, -2), (3, -2), (0, 3)]
    meshVerticesIndex := [(0, 1), (0, 1), (0, 1), (1, 1), (1, 1), (1, 1)]
    meshTriangles := [(0, 1, 2), (3, 4, 5)]
    meshTrianglesIndex := [(0, 1), (1, 1)]
    meshTrianglesColors := [(0, 0, 0, 1), (0, 0, 0, 1)]
    meshTrianglesZ := [0, 5] }

/-- Witness for C3: the hit test at the origin on the concrete overlapping
state, with the front-to-back order `[1, 0]`. -/
theorem shape_at_topmost_witness :
    (([1, 0] : List Nat).Perm (List.range exSL3.shapes.length) ∧
      ([1, 0] : List Nat).Pairwise (fun x y => zOf exSL3 y ≤ zOf exSL3 x) ∧
      (∀ t ∈ exSL3.meshTrianglesIndex, t.1 < exSL3.shapes.length)) ∧
    ((shape_at exSL3 [1, 0] (0, 0) = none ↔
      ∀ q ∈ exSL3.meshTrianglesIndex.zip exSL3.meshTriangles,
        triContains exSL3 q.2 (0, 0) = false) ∧
     (∀ s, shape_at exSL3 [1, 0] (0, 0) = some s →
      (∃ q ∈ exSL3.meshTrianglesIndex.zip exSL3.meshTriangles,
        q.1.1 = s ∧ triContains exSL3 q.2 (0, 0) = true) ∧
      (∀ q ∈ exSL3.meshTrianglesIndex.zip exSL3.meshTriangles,
        triContains exSL3 q.2 (0, 0) = true →
          zOf exSL3 q.1.1 ≤ zOf exSL3 s))) :=
  ⟨⟨by decide, by decide, by decide⟩,
    shape_at_topmost exSL3 [1, 0] (0, 0) (by decide) (by decide) (by decide)⟩

/-- Modelled from the spec: `shape_util.create_box` (the file
`shape_util.py` is absent from the sources) — the 9-point bounding box
[top-left, top-mid, top-right, right-mid, bottom-right, bottom-mid,
bottom-left, left-mid, center] of a point set, exactly as
`ShapesData._expand_box` computes it in the sources. -/
def create_box (points : List QPt) : List QPt :=
  let xs := points.map (fun c => c.1)
  let ys := points.map (fun c => c.2)
  let mnx := xs.foldl min (xs.headD 0)
  let mny := ys.foldl min (ys.headD 0)
  let mxx := xs.foldl max (xs.headD 0)
  let mxy := ys.foldl max (ys.headD 0)
  let tl : QPt := (mnx, mny)
  let tr : QPt := (mxx, mny)
  let br : QPt := (mxx, mxy)
  let bl : QPt := (mnx, mxy)
  [tl, ((tl.1 + tr.1) / 2, (tl.2 + tr.2) / 2), tr,
   ((tr.1 + br.1) / 2, (tr.2 + br.2) / 2), br,
   ((br.1 + bl.1) / 2, (br.2 + bl.2) / 2), bl,
   ((bl.1 + tl.1) / 2, (bl.2 + tl.2) / 2),
   ((tl.1 + tr.1 + br.1 + bl.1) / 4, (tl.2 + tr.2 + br.2 + bl.2) / 4)]

/-- Insertion-sort step: insert into an already sorted list. -/
def insertSorted (x : Nat) : List Nat → List Nat
  | [] => [x]
  | y :: ys => if x ≤ y then x :: y :: ys else y :: insertSorted x ys

/-- `np.unique(...)`: the sorted list of the distinct values of a list. -/
def uniqueSorted (l : List Nat) : List Nat :=
  (l.foldr insertSorted []).dedup

theorem mem_insertSorted (a x : Nat) :
    ∀ l : List Nat, a ∈ insertSorted x l ↔ a = x ∨ a ∈ l := by
  intro l
  induction l with
  | nil => simp [insertSorted]
  | cons y ys ih =>
    by_cases h : x ≤ y
    · simp [insertSorted, h]
    · simp only [insertSorted, if_neg h, List.mem_cons, ih]
      tauto

theorem mem_sortFold (a : Nat) :
    ∀ l : List Nat, a ∈ l.foldr insertSorted [] ↔ a ∈ l := by
  intro l
  induction l with
  | nil => simp
  | cons y ys ih =>
    simp only [List.foldr_cons, mem_insertSorted, List.mem_cons, ih]

theorem mem_uniqueSorted (a : Nat) (l : List Nat) :
    a ∈ uniqueSorted l ↔ a ∈ l := by
  simp [uniqueSorted, List.mem_dedup, mem_sortFold]

/-- The per-triangle test of `_shapes_in_box`: for some corner slot
`i ∈ {0,1,2}`, the box max dominates corner 0 (note: corner 0, not corner
`i` — `box[1] >= triangles[:,0,:]` in the source) and corner `i` dominates
the box min. -/
def triBoxTest (st : SLState) (bmin bmax : QPt) (t : Tri) : Bool :=
  let v := fun j => st.meshVertices.getD j (0, 0)
  let c0 := v t.1
  let upper := decide (c0.1 ≤ bmax.1) && decide (c0.2 ≤ bmax.2)
  (upper && decide (bmin.1 ≤ (v t.1).1) && decide (bmin.2 ≤ (v t.1).2)) ||
    (upper && decide (bmin.1 ≤ (v t.2.1).1) &&
      decide (bmin.2 ≤ (v t.2.1).2)) ||
    (upper && decide (bmin.1 ≤ (v t.2.2).1) &&
      decide (bmin.2 ≤ (v t.2.2).2))

/-- `Shapes._shapes_in_box`: the sorted deduplicated shape indices
(`np.unique(...).tolist()`) of the mesh triangles passing the corner test
against `create_box(box)[[0, 4]]`. -/
def shapes_in_box (st : SLState) (box : List QPt) : List Nat :=
  let b := create_box box
  let bmin := b.getD 0 (0, 0)
  let bmax := b.getD 4 (0, 0)
  let shapes := ((st.meshTrianglesIndex.zip st.meshTriangles).filter
    (fun q => triBoxTest st bmin bmax q.2)).map (fun q => q.1.1)
  uniqueSorted shapes

/-- The predicate stated by the claim (following the spec's words, for
comparison with the code): shape `s` has a mesh triangle with at least one
corner vertex inside the axis-aligned box, each corner tested independently
against both bounds. -/
def claimHasCornerInside (st : SLState) (bmin bmax : QPt) (s : Nat) : Bool :=
  (st.meshTrianglesIndex.zip st.meshTriangles).any (fun q =>
    decide (q.1.1 = s) && ([q.2.1, q.2.2.1, q.2.2.2].any (fun j =>
      let c := st.meshVertices.getD j (0, 0)
      decide (bmin.1 ≤ c.1) && decide (c.1 ≤ bmax.1) &&
        decide (bmin.2 ≤ c.2) && decide (c.2 ≤ bmax.2))))

/-- A one-shape state whose triangle has corner 0 far outside the box but
corner 1 inside it. -/
def exSL7 : SLState :=
  { shapes := [exShape]
    vertices := [(0, 0), (1, 0)]
    index := [0, 0]
    zOrder := [0]
    meshVertices := [(20, 20), (5, 5), (30, 30)]
    meshVerticesIndex := [(0, 1), (0, 1), (0, 1)]
    meshTriangles := [(0, 1, 2)]
    meshTrianglesIndex := [(0, 1)]
    meshTrianglesColors := [(0, 0, 0, 1)]
    meshTrianglesZ := [0] }

/-- Counterexample for C7: shape 0 has triangle corner (5,5) inside the box
(0,0)-(10,10), yet `_shapes_in_box` does not return it — the upper-bound
test always uses corner 0 (here (20,20)), not the corner being tested. -/
theorem shapes_in_box_counterexample :
    claimHasCornerInside exSL7 (0, 0) (10, 10) 0 = true ∧
    shapes_in_box exSL7 [(0, 0), (10, 10)] = [] := by
  constructor
  · decide
  · decide

/-- C7 (amended): `_shapes_in_box` returns exactly the (sorted, distinct)
shape indices owning a mesh triangle for which the box max dominates corner
0 and the box min is dominated by some corner; true edge intersection is not
part of the result. -/
theorem shapes_in_box_spec (st : SLState) (box : List QPt) (s : Nat) :
    s ∈ shapes_in_box st box ↔
      ∃ q ∈ st.meshTrianglesIndex.zip st.meshTriangles, q.1.1 = s ∧
        triBoxTest st ((create_box box).getD 0 (0, 0))
          ((create_box box).getD 4 (0, 0)) q.2 = true := by
  unfold shapes_in_box
  simp only [mem_uniqueSorted, List.mem_map, List.mem_filter]
  constructor
  · rintro ⟨q, ⟨hq, ht⟩, rfl⟩
    exact ⟨q, hq, rfl, ht⟩
  · rintro ⟨q, hq, rfl, ht⟩
    exact ⟨q, ⟨hq, ht⟩, rfl⟩

/-- The slice of the `Shapes` layer state relevant to the opacity property:
the stored `_opacity`, the apply-all flag, the selected shape indices, and
the per-shape opacities (modelled from the spec: `ShapeList.update_opacity`,
absent from the sources, stores the new opacity on shape `i`). -/
structure OpacityState where
  opacity : ℚ
  applyAll : Bool
  selectedShapes : List Nat
  shapeOpacities : List ℚ
  deriving DecidableEq, Inhabited

/-- `Shapes.opacity` setter: raise `ValueError` when the value is outside
[0, 1] — the check precedes every mutation, so the raised error carries the
unchanged state — otherwise store the value and update the opacity of every
affected shape (all of them under `_apply_all`, else the selection). -/
def opacity_set (st : OpacityState) (v : ℚ) :
    Except (String × OpacityState) OpacityState :=
  if 0 ≤ v ∧ v ≤ 1 then
    let idx := if st.applyAll then List.range st.shapeOpacities.length
      else st.selectedShapes
    Except.ok { st with
      opacity := v
      shapeOpacities := idx.foldl (fun l i => l.set i v) st.shapeOpacities }
  else
    Except.error ("opacity must be between 0.0 and 1.0", st)

/-- C8: the opacity setter raises exactly when the value is outside [0, 1],
and on that error the stored opacity and every shape opacity are unchanged
(the error carries the prior state untouched); in range, the stored opacity
becomes the new value. -/
theorem opacity_set_spec (st : OpacityState) (v : ℚ) :
    (v < 0 ∨ 1 < v →
      opacity_set st v = Except.error
        ("opacity must be between 0.0 and 1.0", st)) ∧
    (0 ≤ v ∧ v ≤ 1 → ∃ st', opacity_set st v = Except.ok st' ∧
      st'.opacity = v) := by
  constructor
  · intro h
    rw [opacity_set, if_neg (by
      rintro ⟨h0, h1⟩
      rcases h with h | h <;> linarith)]
  · intro h
    rw [opacity_set, if_pos h]
    exact ⟨_, rfl, rfl⟩

/-- A concrete layer state for the opacity witness. -/
def exOp : OpacityState := ⟨1, true, [], [1, 1]⟩

/-- Witness for C8: setting 2 raises with the state retained; setting 1/2
succeeds and stores 1/2. -/
theorem opacity_set_spec_witness :
    (((2 : ℚ) < 0 ∨ 1 < (2 : ℚ)) ∧
      opacity_set exOp 2 = Except.error
        ("opacity must be between 0.0 and 1.0", exOp)) ∧
    ((0 ≤ (1 / 2 : ℚ) ∧ (1 / 2 : ℚ) ≤ 1) ∧
      ∃ st', opacity_set exOp (1 / 2) = Except.ok st' ∧
        st'.opacity = 1 / 2) :=
  ⟨⟨Or.inr (by norm_num),
    (opacity_set_spec exOp 2).1 (Or.inr (by norm_num))⟩,
   ⟨⟨by norm_num, by norm_num⟩,
    (opacity_set_spec exOp (1 / 2)).2 ⟨by norm_num, by norm_num⟩⟩⟩

/-- The interaction modes of the shapes layer. -/
inductive Mode
  | select
  | direct
  | panZoom
  | addRectangle
  | addEllipse
  | addLine
  | addPath
  | addPolygon
  | vertexInsert
  | vertexRemove
  deriving DecidableEq, Inhabited

/-- Cursor assigned by the mode setter. -/
def modeCursor : Mode → String
  | .select => "pointing"
  | .direct => "pointing"
  | .panZoom => "standard"
  | _ => "cross"

/-- Interactivity flag assigned by the mode setter. -/
def modeInteractive : Mode → Bool
  | .panZoom => true
  | _ => false

/-- Help text assigned by the mode setter. -/
def modeHelp : Mode → String
  | .select => "hold <space> to pan/zoom, press <delete> to remove selected"
  | .direct => "hold <space> to pan/zoom, press <delete> to remove selected"
  | .panZoom => ""
  | _ => "hold <space> to pan/zoom"

/-- The mode string (assigned to the status). -/
def modeStr : Mode → String
  | .select => "select"
  | .direct => "direct"
  | .panZoom => "pan/zoom"
  | .addRectangle => "add_rectangle"
  | .addEllipse => "add_ellipse"
  | .addLine => "add_line"
  | .addPath => "add_path"
  | .addPolygon => "add_polygon"
  | .vertexInsert => "vertex_insert"
  | .vertexRemove => "vertex_remove"

/-- The vertex-editing family: `select`, `direct`, `vertex_insert`,
`vertex_remove`. -/
def inVertexFamily : Mode → Bool
  | .select => true
  | .direct => true
  | .vertexInsert => true
  | .vertexRemove => true
  | _ => false

/-- The interaction state of the `Shapes` layer (`model.py`) together with
the underlying shape collection. -/
structure IState where
  mode : Mode
  cursor : String
  interactive : Bool
  help : String
  status : String
  selectedShapes : List Nat
  selectedShapesStored : List Nat
  hoverShapes : Option Nat × Option Nat
  hoverShapesStored : Option Nat × Option Nat
  dragStart : Option QPt
  dragBox : Option QPt
  fixedVertex : Option QPt
  selectedVertex : Option Nat × Option Nat
  readyToCreate : Bool
  isMoving : Bool
  creating : Bool
  highlight : Bool
  data : SLState
  deriving DecidableEq, Inhabited

/-- `Shapes._unselect`: clear the highlight and the stored
selection/hover caches. -/
def unselect (st : IState) : IState :=
  if st.highlight then
    { st with
      highlight := false
      selectedShapesStored := []
      hoverShapesStored := (none, none) }
  else st

/-- `ShapesList.edit`: overwrite the shape data at `idx` (inside the absent
`shape.py` the data setter also re-derives the cached meshes; the record
keeps its remaining fields), remove its flattened arrays without
renumbering, and re-add the shape at the same slot. -/
def editShape (st : SLState) (idx : Nat) (newData : List QPt) : SLState :=
  let sh := { st.shapes.getD idx default with data := newData }
  let st1 := { st with shapes := st.shapes.set idx sh }
  addShape (removeOne st1 idx false) sh (some idx)

/-- The collection-data effect of `Shapes._finish_drawing`: when a path or
polygon is being created — tested against the mode AFTER a mode transition
has already assigned the new mode — a degenerate (at most 2 vertex)
in-progress shape is removed, and an in-progress path is trimmed of its
trailing preview vertex.  The absent `ShapeList.remove` is modelled by
`remove_one` with renumbering, per the spec.  (With `index` equal to none
the original indexes `self.data._vertices` by an all-false mask and then
calls `remove(None)`; that path never runs with `creating` set.) -/
def finishDrawingData (mode : Mode) (creating : Bool) (index : Option Nat)
    (data : SLState) : SLState :=
  let d1 := if creating = true ∧ mode = Mode.addPath then
      match index with
      | some idx =>
        let verts := keepWith (fun x => x == idx) data.index data.vertices
        if verts.length ≤ 2 then removeOne data idx true
        else editShape data idx verts.dropLast
      | none => data
    else data
  if creating = true ∧ mode = Mode.addPolygon then
    match index with
    | some idx =>
      let verts := keepWith (fun x => x == idx) d1.index d1.vertices
      if verts.length ≤ 2 then removeOne d1 idx true else d1
    | none => d1
  else d1

/-- `Shapes._finish_drawing`: capture the in-progress shape index, clear all
transient drag/creation state, apply the in-progress path/polygon cleanup to
the collection, clear the creating flag and unselect. -/
def finishDrawing (st : IState) : IState :=
  unselect { st with
    readyToCreate := false
    isMoving := false
    selectedShapes := []
    dragStart := none
    dragBox := none
    fixedVertex := none
    selectedVertex := (none, none)
    hoverShapes := (none, none)
    creating := false
    data := finishDrawingData st.mode st.creating st.selectedVertex.1
      st.data }

/-- `Shapes.mode` setter: no-op when the mode is unchanged; otherwise assign
cursor, interactivity, help, status and the new mode, then reset transient
state via `_finish_drawing` unless both the old and the new mode lie in the
vertex-editing family. -/
def setMode (st : IState) (m : Mode) : IState :=
  if m = st.mode then st
  else
    let st1 := { st with
      mode := m
      cursor := modeCursor m
      interactive := modeInteractive m
      help := modeHelp m
      status := modeStr m }
    if inVertexFamily m = true ∧ inVertexFamily st.mode = true then st1
    else finishDrawing st1

theorem finishDrawing_resets (s : IState) :
    (finishDrawing s).selectedShapes = [] ∧
    (finishDrawing s).dragStart = none ∧
    (finishDrawing s).dragBox = none ∧
    (finishDrawing s).fixedVertex = none ∧
    (finishDrawing s).selectedVertex = (none, none) ∧
    (finishDrawing s).hoverShapes = (none, none) ∧
    (finishDrawing s).creating = false ∧
    (finishDrawing s).mode = s.mode := by
  unfold finishDrawing unselect
  split <;> simp

theorem finishDrawing_data_of_not_pathlike (s : IState)
    (h1 : s.mode ≠ Mode.addPath) (h2 : s.mode ≠ Mode.addPolygon) :
    (finishDrawing s).data = s.data := by
  unfold finishDrawing unselect
  have hd : finishDrawingData s.mode s.creating s.selectedVertex.1 s.data
      = s.data := by
    unfold finishDrawingData
    rw [if_neg (by rintro ⟨_, hc⟩; exact h2 hc),
      if_neg (by rintro ⟨_, hc⟩; exact h1 hc)]
  split <;> simp [hd]

/-- C9 (amended): a transition between two vertex-editing-family modes
preserves the selection (and the collection); any transition to a genuinely
different mode outside that situation resets the transient state (selection
emptied, drag anchors and drag box cleared, selected vertex and hover
cleared, creating flag cleared); the in-progress degenerate path/polygon
cleanup, however, runs only when the DESTINATION mode is add_path or
add_polygon, because `_finish_drawing` consults the mode after it has been
reassigned — switching away from add_path/add_polygon to any other mode
leaves the degenerate in-progress shape in the collection. -/
theorem setMode_spec (st : IState) (m : Mode) :
    (inVertexFamily m = true → inVertexFamily st.mode = true →
      (setMode st m).selectedShapes = st.selectedShapes ∧
      (setMode st m).data = st.data) ∧
    (m ≠ st.mode →
      ¬(inVertexFamily m = true ∧ inVertexFamily st.mode = true) →
      (setMode st m).selectedShapes = [] ∧
      (setMode st m).dragStart = none ∧
      (setMode st m).dragBox = none ∧
      (setMode st m).fixedVertex = none ∧
      (setMode st m).selectedVertex = (none, none) ∧
      (setMode st m).creating = false) ∧
    (m ≠ Mode.addPath → m ≠ Mode.addPolygon →
      (setMode st m).data = st.data) := by
  by_cases hm : m = st.mode
  · subst hm
    rw [setMode]
    simp only [if_pos rfl]
    exact ⟨fun _ _ => ⟨rfl, rfl⟩, fun h _ => absurd rfl h,
      fun _ _ => rfl⟩
  · rw [setMode, if_neg hm]
    by_cases hfam : inVertexFamily m = true ∧ inVertexFamily st.mode = true
    · rw [if_pos hfam]
      exact ⟨fun _ _ => ⟨rfl, rfl⟩, fun _ hn => absurd hfam hn,
        fun _ _ => rfl⟩
    · rw [if_neg hfam]
      refine ⟨fun h1 h2 => absurd ⟨h1, h2⟩ hfam, fun _ _ => ?_, ?_⟩
      · obtain ⟨h1, h2, h3, h4, h5, h6, h7, _⟩ := finishDrawing_resets
          { st with
            mode := m
            cursor := modeCursor m
            interactive := modeInteractive m
            help := modeHelp m
            status := modeStr m }
        exact ⟨h1, h2, h3, h4, h5, h7⟩
      · intro hp hq
        exact finishDrawing_data_of_not_pathlike _ hp hq

/-- A state in the middle of drawing a degenerate 2-vertex path (the
collection holds the single in-progress shape). -/
def exIState : IState :=
  { mode := Mode.addPath
    cursor := "cross"
    interactive := false
    help := "hold <space> to pan/zoom"
    status := "add_path"
    selectedShapes := [0]
    selectedShapesStored := []
    hoverShapes := (none, none)
    hoverShapesStored := (none, none)
    dragStart := none
    dragBox := none
    fixedVertex := none
    selectedVertex := (some 0, none)
    readyToCreate := false
    isMoving := false
    creating := true
    highlight := true
    data := exSL7 }

/-- The same state sitting in `select` mode with nothing being created. -/
def exIState2 : IState :=
  { exIState with
    mode := Mode.select
    status := "select"
    creating := false }

/-- Counterexample for C9: leaving `add_path` for `select` while creating a
degenerate 2-vertex path clears the transient state but does NOT discard the
in-progress shape — the collection is untouched and still holds it. -/
theorem setMode_counterexample :
    exIState.creating = true ∧ exIState.mode = Mode.addPath ∧
    (keepWith (fun x => x == 0) exIState.data.index
      exIState.data.vertices).length ≤ 2 ∧
    (setMode exIState Mode.select).creating = false ∧
    (setMode exIState Mode.select).selectedShapes = [] ∧
    (setMode exIState Mode.select).data = exIState.data ∧
    (setMode exIState Mode.select).data.shapes.length = 1 := by
  decide

/-- Witness for C9 (amended): a vertex-family transition preserving the
selection, and a transition out of `add_path` resetting transient state
while leaving the collection untouched. -/
theorem setMode_spec_witness :
    ((setMode exIState2 Mode.direct).selectedShapes
        = exIState2.selectedShapes ∧
      (setMode exIState2 Mode.direct).data = exIState2.data) ∧
    ((setMode exIState Mode.select).selectedShapes = [] ∧
      (setMode exIState Mode.select).dragStart = none ∧
      (setMode exIState Mode.select).dragBox = none ∧
      (setMode exIState Mode.select).fixedVertex = none ∧
      (setMode exIState Mode.select).selectedVertex = (none, none) ∧
      (setMode exIState Mode.select).creating = false) ∧
    (setMode exIState Mode.select).data = exIState.data :=
  ⟨(setMode_spec exIState2 Mode.direct).1 (by decide) (by decide),
   (setMode_spec exIState Mode.select).2.1 (by decide) (by decide),
   (setMode_spec exIState Mode.select).2.2 (by decide) (by decide)⟩

/-! Path triangulator (`gui/layers/shapes_data/shapes_data.py`), over real
coordinates.  The branch conditions compare real quantities, so these
definitions use classical decidability and are `noncomputable`; concrete
evaluations in witnesses go through `simp`/`norm_num` with explicit square
roots. -/

/-- 2D point with real coordinates. -/
abbrev RPt := ℝ × ℝ

/-- Componentwise sum. -/
def vadd (a b : RPt) : RPt := (a.1 + b.1, a.2 + b.2)

/-- Componentwise difference. -/
def vsub (a b : RPt) : RPt := (a.1 - b.1, a.2 - b.2)

/-- Componentwise negation. -/
def vneg (a : RPt) : RPt := (-a.1, -a.2)

/-- Scalar multiple. -/
def smulR (c : ℝ) (a : RPt) : RPt := (c * a.1, c * a.2)

/-- Dot product. -/
def dotR (a b : RPt) : ℝ := a.1 * b.1 + a.2 * b.2

/-- 2D cross product (z-component), `np.cross` on 2-vectors. -/
def crossR (a b : RPt) : ℝ := a.1 * b.2 - a.2 * b.1

/-- Euclidean norm, `np.linalg.norm`. -/
noncomputable def norm2 (a : RPt) : ℝ := Real.sqrt (a.1 * a.1 + a.2 * a.2)

/-- `np.sign`. -/
noncomputable def rsign (x : ℝ) : ℝ :=
  if 0 < x then 1 else if x < 0 then -1 else 0

/-- `segment_normal(a, b)`: unit vector perpendicular to the segment a→b
with the `(dy, -dx)` convention.  On a zero-length segment the division by
the zero norm silently produces a degenerate value (NaN in numpy; `(0, 0)`
here, by the Lean convention `x / 0 = 0`) — no error is raised. -/
noncomputable def segment_normal (a b : RPt) : RPt :=
  let d := vsub b a
  let n : RPt := (d.2, -d.1)
  (n.1 / norm2 n, n.2 / norm2 n)

theorem norm2_neg (a : RPt) : norm2 (vneg a) = norm2 a := by
  unfold norm2 vneg
  norm_num

theorem segment_normal_symm (a b : RPt) :
    segment_normal b a = vneg (segment_normal a b) := by
  unfold segment_normal vsub vneg norm2
  simp only
  have h : (a.2 - b.2) * (a.2 - b.2) + (-(a.1 - b.1)) * (-(a.1 - b.1))
      = (b.2 - a.2) * (b.2 - a.2) + (-(b.1 - a.1)) * (-(b.1 - a.1)) := by
    ring
  rw [h]
  simp only [Prod.mk.injEq]
  constructor <;> ring

theorem dot_segment_normal_self {a b : RPt} (h : a ≠ b) :
    dotR (segment_normal a b) (segment_normal a b) = 1 := by
  unfold segment_normal dotR vsub norm2
  simp only
  set s := (b.2 - a.2) * (b.2 - a.2) + (-(b.1 - a.1)) * (-(b.1 - a.1))
    with hs
  have hs0 : 0 < s := by
    have hne : b.1 - a.1 ≠ 0 ∨ b.2 - a.2 ≠ 0 := by
      by_contra hc
      push_neg at hc
      apply h
      have h1 : a.1 = b.1 := by linarith [hc.1]
      have h2 : a.2 = b.2 := by linarith [hc.2]
      exact Prod.ext h1 h2
    rcases hne with h1 | h2
    · nlinarith [sq_nonneg (b.2 - a.2), sq_nonneg (b.1 - a.1),
        mul_self_pos.mpr h1]
    · nlinarith [sq_nonneg (b.2 - a.2), sq_nonneg (b.1 - a.1),
        mul_self_pos.mpr h2]
  have hsq : Real.sqrt s * Real.sqrt s = s :=
    Real.mul_self_sqrt (le_of_lt hs0)
  have key : (b.2 - a.2) / Real.sqrt s * ((b.2 - a.2) / Real.sqrt s)
      + -(b.1 - a.1) / Real.sqrt s * (-(b.1 - a.1) / Real.sqrt s)
      = ((b.2 - a.2) * (b.2 - a.2) + -(b.1 - a.1) * -(b.1 - a.1))
        / (Real.sqrt s * Real.sqrt s) := by
    ring
  rw [key, hsq, ← hs]
  exact div_self (ne_of_gt hs0)

/-- Normals of an open path: over `full_path = path ++ [path[-2]]`, one
normal per input point, the last one sign-flipped
(`normals[-1] = -normals[-1]`). -/
noncomputable def openNormals (path : List RPt) : List RPt :=
  let fp := path ++ [path.getD (path.length - 2) (0, 0)]
  (List.range path.length).map (fun i =>
    let v := segment_normal (fp.getD i (0, 0)) (fp.getD (i + 1) (0, 0))
    if i = path.length - 1 then vneg v else v)

/-- `full_normals` of an open path: the first normal duplicated in front
(`np.concatenate(([normals[0]], normals))`). -/
noncomputable def openFullNormals (path : List RPt) : List RPt :=
  (openNormals path).getD 0 (0, 0) :: openNormals path

/-- Normals of a closed path: over
`full_path = [path[-1]] ++ path ++ [path[0]]`. -/
noncomputable def closedNormals (path : List RPt) : List RPt :=
  let fp := path.getD (path.length - 1) (0, 0)
    :: (path ++ [path.getD 0 (0, 0)])
  (List.range path.length).map (fun i =>
    segment_normal (fp.getD i (0, 0)) (fp.getD (i + 1) (0, 0)))

/-- `full_normals` of a closed path: the first normal appended at the back. -/
noncomputable def closedFullNormals (path : List RPt) : List RPt :=
  closedNormals path ++ [(closedNormals path).getD 0 (0, 0)]

/-- The miter vector at vertex `i`:
`full_normals[i:i+2].mean(axis=0) / dot(mean, full_normals[i])` — the numpy
slice has a single row at the last closed-path index. -/
noncomputable def miterAt (fn : List RPt) (i : Nat) : RPt :=
  let m0 := if i + 1 < fn.length
    then smulR (1 / 2) (vadd (fn.getD i (0, 0)) (fn.getD (i + 1) (0, 0)))
    else fn.getD i (0, 0)
  let d := dotR m0 (fn.getD i (0, 0))
  (m0.1 / d, m0.2 / d)

/-- The loop state of `path_triangulate`: the central path, the vertex
offsets, the emitted faces, and the rolling base index `m`. -/
structure PTState where
  central : List RPt
  offs : List RPt
  faces : List Tri
  m : Nat

open Classical in
/-- One iteration of the `path_triangulate` loop at index `i`, exactly
following the source's branches (`i == 0`, `i == len(full_path)-1`,
bevel corner, plain join).  Note that the mid-path bevel branch appends
three offsets but no central points, as in the source. -/
noncomputable def ptStep (fp fn : List RPt) (limit : ℝ) (bevel closed : Bool)
    (s : PTState) (i : Nat) : PTState :=
  let L := fp.length
  let mi := smulR (1 / 2) (miterAt fn i)
  let mlen := norm2 (miterAt fn i)
  let pti := fp.getD i (0, 0)
  if i = 0 then
    if (bevel = true ∨ mlen > limit) ∧ closed = true then
      let off0 : RPt := (mi.2, -mi.1)
      let off := smulR (1 / 2) (off0.1 / norm2 off0, off0.2 / norm2 off0)
      let flip := rsign (dotR off (fn.getD i (0, 0)))
      { central := s.central ++ [pti, pti, pti]
        offs := s.offs ++ [off, smulR (-flip) mi, vneg off]
        faces := s.faces ++ [(0, 1, 2)]
        m := s.m + 1 }
    else
      { s with
        central := s.central ++ [pti, pti]
        offs := s.offs ++ [vneg mi, mi] }
  else if i = L - 1 then
    if closed = true then
      let a := vsub (s.offs.getD (s.m + 1) (0, 0)) (fp.getD (i - 1) (0, 0))
      let b := vsub (s.offs.getD 1 (0, 0)) (fp.getD (i - 1) (0, 0))
      let ray := vsub (fp.getD i (0, 0)) (fp.getD (i - 1) (0, 0))
      if crossR a ray * crossR b ray > 0 then
        { s with faces := s.faces ++ [(s.m, s.m + 1, 1), (s.m, 0, 1)] }
      else
        { s with faces := s.faces ++ [(s.m, s.m + 1, 1), (s.m + 1, 0, 1)] }
    else
      let offs2 := s.offs ++ [vneg mi, mi]
      let a := vsub (offs2.getD (s.m + 1) (0, 0)) (fp.getD (i - 1) (0, 0))
      let b := vsub (offs2.getD (s.m + 3) (0, 0)) (fp.getD (i - 1) (0, 0))
      let ray := vsub (fp.getD i (0, 0)) (fp.getD (i - 1) (0, 0))
      if crossR a ray * crossR b ray > 0 then
        { central := s.central ++ [pti, pti]
          offs := offs2
          faces := s.faces ++ [(s.m, s.m + 1, s.m + 3), (s.m, s.m + 2, s.m + 3)]
          m := s.m }
      else
        { central := s.central ++ [pti, pti]
          offs := offs2
          faces := s.faces
            ++ [(s.m, s.m + 1, s.m + 3), (s.m + 1, s.m + 2, s.m + 3)]
          m := s.m }
  else if bevel = true ∨ mlen > limit then
    let off0 : RPt := (mi.2, -mi.1)
    let off := smulR (1 / 2) (off0.1 / norm2 off0, off0.2 / norm2 off0)
    let flip := rsign (dotR off (fn.getD i (0, 0)))
    let offs2 := s.offs ++ [off, smulR (-flip) mi, vneg off]
    let a := vsub (offs2.getD (s.m + 1) (0, 0)) (fp.getD (i - 1) (0, 0))
    let b := vsub (offs2.getD (s.m + 3) (0, 0)) (fp.getD (i - 1) (0, 0))
    let ray := vsub (fp.getD i (0, 0)) (fp.getD (i - 1) (0, 0))
    let fs := if crossR a ray * crossR b ray > 0 then
        [(s.m, s.m + 1, s.m + 3), (s.m, s.m + 2, s.m + 3)]
      else [(s.m, s.m + 1, s.m + 3), (s.m + 1, s.m + 2, s.m + 3)]
    { central := s.central
      offs := offs2
      faces := s.faces ++ fs ++ [(s.m + 2, s.m + 3, s.m + 4)]
      m := s.m + 3 }
  else
    let offs2 := s.offs ++ [vneg mi, mi]
    let a := vsub (offs2.getD (s.m + 1) (0, 0)) (fp.getD (i - 1) (0, 0))
    let b := vsub (offs2.getD (s.m + 3) (0, 0)) (fp.getD (i - 1) (0, 0))
    let ray := vsub (fp.getD i (0, 0)) (fp.getD (i - 1) (0, 0))
    let fs := if crossR a ray * crossR b ray > 0 then
        [(s.m, s.m + 1, s.m + 3), (s.m, s.m + 2, s.m + 3)]
      else [(s.m, s.m + 1, s.m + 3), (s.m + 1, s.m + 2, s.m + 3)]
    { central := s.central ++ [pti, pti]
      offs := offs2
      faces := s.faces ++ fs
      m := s.m + 2 }

/-- `path_triangulate(path, closed, limit, bevel)`: returns
`(central_path, vertex_offsets, faces)`. -/
noncomputable def pathTriangulate (path : List RPt) (closed : Bool)
    (limit : ℝ) (bevel : Bool) : List RPt × List RPt × List Tri :=
  let fp := if closed then path ++ [path.getD 0 (0, 0)] else path
  let fn := if closed then closedFullNormals path else openFullNormals path
  let s := (List.range fp.length).foldl (ptStep fp fn limit bevel closed)
    ⟨[], [], [], 0⟩
  (s.central, s.offs, s.faces)

/-- The flattened list of the `j` consecutive pairs `g 0, …, g (j-1)`. -/
noncomputable def pairList (g : Nat → RPt × RPt) : Nat → List RPt
  | 0 => []
  | j + 1 => pairList g j ++ [(g j).1, (g j).2]

theorem pairList_length (g : Nat → RPt × RPt) :
    ∀ j, (pairList g j).length = 2 * j := by
  intro j
  induction j with
  | zero => rfl
  | succ j ih =>
    simp only [pairList, List.length_append, ih, List.length_cons,
      List.length_nil]
    omega

theorem pairList_getD (g : Nat → RPt × RPt) :
    ∀ j k, k < j →
    (pairList g j).getD (2 * k) (0, 0) = (g k).1 ∧
    (pairList g j).getD (2 * k + 1) (0, 0) = (g k).2 := by
  intro j
  induction j with
  | zero => intro k h; omega
  | succ j ih =>
    intro k hk
    by_cases hkj : k < j
    · have hlen := pairList_length g j
      obtain ⟨h1, h2⟩ := ih k hkj
      constructor
      · rw [pairList, List.getD_append _ _ _ _ (by omega)]
        exact h1
      · rw [pairList, List.getD_append _ _ _ _ (by omega)]
        exact h2
    · have hkeq : k = j := by omega
      subst hkeq
      have hlen := pairList_length g k
      constructor
      · rw [pairList, List.getD_append_right _ _ _ _ (by omega), hlen]
        simp
      · rw [pairList, List.getD_append_right _ _ _ _ (by omega), hlen]
        have h1 : 2 * k + 1 - 2 * k = 1 := by omega
        rw [h1]
        simp

theorem ptStep_open_first (fp fn : List RPt) (limit : ℝ) (bevel : Bool)
    (s : PTState) :
    ptStep fp fn limit bevel false s 0 =
      { s with
        central := s.central ++ [fp.getD 0 (0, 0), fp.getD 0 (0, 0)]
        offs := s.offs ++ [vneg (smulR (1 / 2) (miterAt fn 0)),
          smulR (1 / 2) (miterAt fn 0)] } := by
  simp only [ptStep]
  rw [if_pos trivial,
    if_neg (by rintro ⟨_, hc⟩; exact Bool.false_ne_true hc)]

theorem ptStep_plain_mid (fp fn : List RPt) (limit : ℝ) (s : PTState)
    (i : Nat) (h0 : i ≠ 0) (hL : i ≠ fp.length - 1)
    (hm : ¬(norm2 (miterAt fn i) > limit)) :
    ∃ fs : List Tri, fs.length = 2 ∧
      ptStep fp fn limit false false s i =
        ⟨s.central ++ [fp.getD i (0, 0), fp.getD i (0, 0)],
         s.offs ++ [vneg (smulR (1 / 2) (miterAt fn i)),
           smulR (1 / 2) (miterAt fn i)],
         s.faces ++ fs, s.m + 2⟩ := by
  simp only [ptStep]
  rw [if_neg h0, if_neg hL, if_neg (by
    rintro (hc | hc)
    · exact Bool.false_ne_true hc
    · exact hm hc)]
  refine ⟨_, ?_, rfl⟩
  split <;> rfl

theorem ptStep_open_last (fp fn : List RPt) (limit : ℝ) (bevel : Bool)
    (s : PTState) (i : Nat) (h0 : i ≠ 0) (hL : i = fp.length - 1) :
    ∃ fs : List Tri, fs.length = 2 ∧
      ptStep fp fn limit bevel false s i =
        ⟨s.central ++ [fp.getD i (0, 0), fp.getD i (0, 0)],
         s.offs ++ [vneg (smulR (1 / 2) (miterAt fn i)),
           smulR (1 / 2) (miterAt fn i)],
         s.faces ++ fs, s.m⟩ := by
  simp only [ptStep]
  rw [if_neg h0, if_pos hL, if_neg (Bool.false_ne_true)]
  split
  · refine ⟨_, ?_, rfl⟩
    rfl
  · refine ⟨_, ?_, rfl⟩
    rfl

theorem pairList_eq_append (g : Nat → RPt × RPt) {n m : Nat}
    (h : n = m + 1) :
    pairList g n = pairList g m ++ [(g m).1, (g m).2] := by
  subst h
  rfl

theorem ptFold_open_inv (P : List RPt) (limit : ℝ)
    (h2 : 2 ≤ P.length)
    (hml : ∀ i, 1 ≤ i → i ≤ P.length - 2 →
      ¬(norm2 (miterAt (openFullNormals P) i) > limit)) :
    ∀ j, 1 ≤ j → j ≤ P.length - 1 →
    ∃ fcs : List Tri, fcs.length = 2 * (j - 1) ∧
      (List.range j).foldl
          (ptStep P (openFullNormals P) limit false false) ⟨[], [], [], 0⟩ =
        ⟨pairList (fun k => (P.getD k (0, 0), P.getD k (0, 0))) j,
         pairList (fun k =>
           (vneg (smulR (1 / 2) (miterAt (openFullNormals P) k)),
            smulR (1 / 2) (miterAt (openFullNormals P) k))) j,
         fcs, 2 * (j - 1)⟩ := by
  intro j
  induction j with
  | zero => intro h; omega
  | succ j ih =>
    intro h1 hj
    by_cases hj0 : j = 0
    · subst hj0
      refine ⟨[], rfl, ?_⟩
      rw [show List.range 1 = [0] from rfl, List.foldl_cons, List.foldl_nil,
        ptStep_open_first]
      simp [pairList]
    · have hj1 : 1 ≤ j := by omega
      obtain ⟨fcs, hflen, hfold⟩ := ih hj1 (by omega)
      obtain ⟨fs, hfs, hstep⟩ := ptStep_plain_mid P (openFullNormals P) limit
        ⟨pairList (fun k => (P.getD k (0, 0), P.getD k (0, 0))) j,
         pairList (fun k =>
           (vneg (smulR (1 / 2) (miterAt (openFullNormals P) k)),
            smulR (1 / 2) (miterAt (openFullNormals P) k))) j,
         fcs, 2 * (j - 1)⟩ j hj0 (by omega) (hml j hj1 (by omega))
      refine ⟨fcs ++ fs, ?_, ?_⟩
      · rw [List.length_append, hflen, hfs]
        omega
      · rw [List.range_succ, List.foldl_append, hfold,
          List.foldl_cons, List.foldl_nil, hstep]
        simp only [pairList, PTState.mk.injEq]
        exact ⟨trivial, trivial, trivial, by omega⟩

theorem ptFold_open_full (P : List RPt) (limit : ℝ)
    (h2 : 2 ≤ P.length)
    (hml : ∀ i, 1 ≤ i → i ≤ P.length - 2 →
      ¬(norm2 (miterAt (openFullNormals P) i) > limit)) :
    ∃ fcs : List Tri, fcs.length = 2 * (P.length - 1) ∧
      (List.range P.length).foldl
          (ptStep P (openFullNormals P) limit false false) ⟨[], [], [], 0⟩ =
        ⟨pairList (fun k => (P.getD k (0, 0), P.getD k (0, 0))) P.length,
         pairList (fun k =>
           (vneg (smulR (1 / 2) (miterAt (openFullNormals P) k)),
            smulR (1 / 2) (miterAt (openFullNormals P) k))) P.length,
         fcs, 2 * (P.length - 2)⟩ := by
  obtain ⟨fcs, hflen, hfold⟩ := ptFold_open_inv P limit h2 hml
    (P.length - 1) (by omega) (le_refl _)
  obtain ⟨fs, hfs, hstep⟩ := ptStep_open_last P (openFullNormals P) limit
    false
    ⟨pairList (fun k => (P.getD k (0, 0), P.getD k (0, 0))) (P.length - 1),
     pairList (fun k =>
       (vneg (smulR (1 / 2) (miterAt (openFullNormals P) k)),
        smulR (1 / 2) (miterAt (openFullNormals P) k))) (P.length - 1),
     fcs, 2 * (P.length - 1 - 1)⟩ (P.length - 1) (by omega) rfl
  refine ⟨fcs ++ fs, ?_, ?_⟩
  · rw [List.length_append, hflen, hfs]
    omega
  · have hrange : List.range P.length
        = List.range (P.length - 1) ++ [P.length - 1] := by
      conv_lhs => rw [show P.length = (P.length - 1) + 1 by omega]
      rw [List.range_succ]
    rw [hrange, List.foldl_append, hfold, List.foldl_cons, List.foldl_nil,
      hstep,
      pairList_eq_append (fun k => (P.getD k (0, 0), P.getD k (0, 0)))
        (show P.length = (P.length - 1) + 1 by omega),
      pairList_eq_append (fun k =>
        (vneg (smulR (1 / 2) (miterAt (openFullNormals P) k)),
         smulR (1 / 2) (miterAt (openFullNormals P) k)))
        (show P.length = (P.length - 1) + 1 by omega)]
    simp only [PTState.mk.injEq]
    exact ⟨trivial, trivial, trivial, by omega⟩

theorem getD_map_range (f : Nat → RPt) (n i : Nat) (hi : i < n) :
    ((List.range n).map f).getD i (0, 0) = f i := by
  rw [List.getD_eq_getElem _ _ (by simp [hi])]
  simp

theorem openNormals_length (P : List RPt) :
    (openNormals P).length = P.length := by
  unfold openNormals
  simp

theorem openNormals_getD_head (P : List RPt) (h2 : 2 ≤ P.length) :
    (openNormals P).getD 0 (0, 0)
      = segment_normal (P.getD 0 (0, 0)) (P.getD 1 (0, 0)) := by
  unfold openNormals
  rw [getD_map_range _ _ _ (by omega)]
  simp only
  rw [if_neg (by omega), List.getD_append _ _ _ _ (by omega),
    List.getD_append _ _ _ _ (by omega)]

theorem openNormals_getD_pre_last (P : List RPt) (h2 : 2 ≤ P.length) :
    (openNormals P).getD (P.length - 2) (0, 0)
      = segment_normal (P.getD (P.length - 2) (0, 0))
          (P.getD (P.length - 1) (0, 0)) := by
  unfold openNormals
  rw [getD_map_range _ _ _ (by omega)]
  simp only
  rw [if_neg (by omega), List.getD_append _ _ _ _ (by omega),
    show P.length - 2 + 1 = P.length - 1 by omega,
    List.getD_append _ _ _ _ (by omega)]

theorem openNormals_getD_last (P : List RPt) (h2 : 2 ≤ P.length) :
    (openNormals P).getD (P.length - 1) (0, 0)
      = vneg (segment_normal (P.getD (P.length - 1) (0, 0))
          (P.getD (P.length - 2) (0, 0))) := by
  unfold openNormals
  rw [getD_map_range _ _ _ (by omega)]
  simp only
  rw [if_pos trivial, List.getD_append _ _ _ _ (by omega),
    show P.length - 1 + 1 = P.length by omega,
    List.getD_append_right _ _ _ _ (le_refl _)]
  simp

theorem vneg_vneg (a : RPt) : vneg (vneg a) = a := by
  unfold vneg
  simp

theorem half_vadd_self (a : RPt) : smulR (1 / 2) (vadd a a) = a := by
  unfold smulR vadd
  rw [Prod.ext_iff]
  constructor <;> dsimp only <;> ring

theorem miterAt_open_head (P : List RPt) (h2 : 2 ≤ P.length)
    (hd : P.getD 0 (0, 0) ≠ P.getD 1 (0, 0)) :
    miterAt (openFullNormals P) 0
      = segment_normal (P.getD 0 (0, 0)) (P.getD 1 (0, 0)) := by
  have hl := openNormals_length P
  unfold miterAt openFullNormals
  rw [if_pos (by simp only [List.length_cons, hl]; omega)]
  rw [List.getD_cons_zero, List.getD_cons_succ, openNormals_getD_head P h2]
  dsimp only
  rw [half_vadd_self, dot_segment_normal_self hd]
  simp

theorem miterAt_open_last (P : List RPt) (h2 : 2 ≤ P.length)
    (hd : P.getD (P.length - 2) (0, 0) ≠ P.getD (P.length - 1) (0, 0)) :
    miterAt (openFullNormals P) (P.length - 1)
      = segment_normal (P.getD (P.length - 2) (0, 0))
          (P.getD (P.length - 1) (0, 0)) := by
  have hl := openNormals_length P
  unfold miterAt openFullNormals
  rw [if_pos (by simp only [List.length_cons, hl]; omega)]
  rw [show P.length - 1 = (P.length - 2) + 1 by omega,
    List.getD_cons_succ, List.getD_cons_succ,
    show P.length - 2 + 1 = P.length - 1 by omega,
    openNormals_getD_pre_last P h2, openNormals_getD_last P h2,
    segment_normal_symm (P.getD (P.length - 2) (0, 0))
      (P.getD (P.length - 1) (0, 0)), vneg_vneg]
  dsimp only
  rw [half_vadd_self, dot_segment_normal_self hd]
  simp

/-- C4: on an open path of N ≥ 2 points with distinct end segments and no
interior miter above the bevel limit, `path_triangulate` returns centers of
length exactly 2N with every input point duplicated once, offsets of the
same length, exactly 2(N-1) triangles, and square caps at both ends: the
offset pair at each end is ∓ half the end-segment unit normal (at the tail
this results from duplicating the endpoint normal with a sign flip). -/
theorem path_triangulate_open_spec (P : List RPt) (limit : ℝ)
    (h2 : 2 ≤ P.length)
    (hd0 : P.getD 0 (0, 0) ≠ P.getD 1 (0, 0))
    (hdL : P.getD (P.length - 2) (0, 0) ≠ P.getD (P.length - 1) (0, 0))
    (hml : ∀ i, 1 ≤ i → i ≤ P.length - 2 →
      ¬(norm2 (miterAt (openFullNormals P) i) > limit)) :
    (pathTriangulate P false limit false).1.length = 2 * P.length ∧
    (pathTriangulate P false limit false).2.1.length = 2 * P.length ∧
    (pathTriangulate P false limit false).2.2.length = 2 * (P.length - 1) ∧
    (∀ k, k < P.length →
      (pathTriangulate P false limit false).1.getD (2 * k) (0, 0)
        = P.getD k (0, 0) ∧
      (pathTriangulate P false limit false).1.getD (2 * k + 1) (0, 0)
        = P.getD k (0, 0)) ∧
    (pathTriangulate P false limit false).2.1.getD 0 (0, 0)
      = vneg (smulR (1 / 2)
          (segment_normal (P.getD 0 (0, 0)) (P.getD 1 (0, 0)))) ∧
    (pathTriangulate P false limit false).2.1.getD 1 (0, 0)
      = smulR (1 / 2)
          (segment_normal (P.getD 0 (0, 0)) (P.getD 1 (0, 0))) ∧
    (pathTriangulate P false limit false).2.1.getD
        (2 * P.length - 2) (0, 0)
      = vneg (smulR (1 / 2)
          (segment_normal (P.getD (P.length - 2) (0, 0))
            (P.getD (P.length - 1) (0, 0)))) ∧
    (pathTriangulate P false limit false).2.1.getD
        (2 * P.length - 1) (0, 0)
      = smulR (1 / 2)
          (segment_normal (P.getD (P.length - 2) (0, 0))
            (P.getD (P.length - 1) (0, 0))) := by
  obtain ⟨fcs, hflen, hfold⟩ := ptFold_open_full P limit h2 hml
  have hpt : pathTriangulate P false limit false
      = (pairList (fun k => (P.getD k (0, 0), P.getD k (0, 0))) P.length,
         pairList (fun k =>
           (vneg (smulR (1 / 2) (miterAt (openFullNormals P) k)),
            smulR (1 / 2) (miterAt (openFullNormals P) k))) P.length,
         fcs) := by
    unfold pathTriangulate
    simp only [Bool.false_eq_true, if_false]
    rw [hfold]
  rw [hpt]
  refine ⟨pairList_length _ _, pairList_length _ _, hflen, ?_, ?_, ?_, ?_, ?_⟩
  · intro k hk
    exact pairList_getD _ P.length k hk
  · exact (pairList_getD _ P.length 0 (by omega)).1.trans
      (by rw [miterAt_open_head P h2 hd0])
  · have h := (pairList_getD (fun k =>
      (vneg (smulR (1 / 2) (miterAt (openFullNormals P) k)),
       smulR (1 / 2) (miterAt (openFullNormals P) k))) P.length 0 (by omega)).2
    rw [show 2 * 0 + 1 = 1 by omega] at h
    rw [h, miterAt_open_head P h2 hd0]
  · have h := (pairList_getD (fun k =>
      (vneg (smulR (1 / 2) (miterAt (openFullNormals P) k)),
       smulR (1 / 2) (miterAt (openFullNormals P) k))) P.length
      (P.length - 1) (by omega)).1
    rw [show 2 * (P.length - 1) = 2 * P.length - 2 by omega] at h
    rw [h, miterAt_open_last P h2 hdL]
  · have h := (pairList_getD (fun k =>
      (vneg (smulR (1 / 2) (miterAt (openFullNormals P) k)),
       smulR (1 / 2) (miterAt (openFullNormals P) k))) P.length
      (P.length - 1) (by omega)).2
    rw [show 2 * (P.length - 1) + 1 = 2 * P.length - 1 by omega] at h
    rw [h, miterAt_open_last P h2 hdL]

/-- A collinear three-point open test path. -/
noncomputable def exPath : List RPt := [(0, 0), (1, 0), (2, 0)]

theorem exPath_sn01 : segment_normal ((0, 0) : RPt) (1, 0) = (0, -1) := by
  unfold segment_normal vsub norm2
  dsimp only
  rw [show ((0:ℝ) - 0) * (0 - 0) + -((1:ℝ) - 0) * -(1 - 0) = 1 by ring,
    Real.sqrt_one]
  norm_num

theorem exPath_sn12 : segment_normal ((1, 0) : RPt) (2, 0) = (0, -1) := by
  unfold segment_normal vsub norm2
  dsimp only
  rw [show ((0:ℝ) - 0) * (0 - 0) + -((2:ℝ) - 1) * -(2 - 1) = 1 by ring,
    Real.sqrt_one]
  norm_num

theorem exPath_sn21 : segment_normal ((2, 0) : RPt) (1, 0) = (0, 1) := by
  unfold segment_normal vsub norm2
  dsimp only
  rw [show ((0:ℝ) - 0) * (0 - 0) + -((1:ℝ) - 2) * -(1 - 2) = 1 by ring,
    Real.sqrt_one]
  norm_num

theorem exPath_normals :
    openNormals exPath = [(0, -1), (0, -1), (0, -1)] := by
  have h : openNormals exPath
      = [segment_normal (0, 0) (1, 0), segment_normal (1, 0) (2, 0),
         vneg (segment_normal (2, 0) (1, 0))] := rfl
  rw [h, exPath_sn01, exPath_sn12, exPath_sn21]
  norm_num [vneg]

theorem exPath_fn :
    openFullNormals exPath = [(0, -1), (0, -1), (0, -1), (0, -1)] := by
  unfold openFullNormals
  rw [exPath_normals]
  rfl

theorem exPath_miterAt {i : Nat} (hi : i ≤ 2) :
    miterAt (openFullNormals exPath) i = (0, -1) := by
  rw [exPath_fn]
  unfold miterAt
  interval_cases i <;>
  · rw [if_pos (by norm_num)]
    dsimp only
    norm_num [vadd, smulR, dotR, List.getD]

theorem exPath_mlen : norm2 ((0, -1) : RPt) = 1 := by
  unfold norm2
  rw [show ((0:ℝ) * 0 + (-1) * (-1)) = 1 by ring, Real.sqrt_one]

/-- Witness for C4 at the concrete open path `[(0,0),(1,0),(2,0)]` with the
default limit 5. -/
theorem path_triangulate_open_spec_witness :
    ((2 ≤ exPath.length) ∧
      (exPath.getD 0 (0, 0) ≠ exPath.getD 1 (0, 0)) ∧
      (exPath.getD (exPath.length - 2) (0, 0)
        ≠ exPath.getD (exPath.length - 1) (0, 0)) ∧
      (∀ i, 1 ≤ i → i ≤ exPath.length - 2 →
        ¬(norm2 (miterAt (openFullNormals exPath) i) > 5))) ∧
    ((pathTriangulate exPath false 5 false).1.length = 2 * exPath.length ∧
     (pathTriangulate exPath false 5 false).2.1.length = 2 * exPath.length ∧
     (pathTriangulate exPath false 5 false).2.2.length
        = 2 * (exPath.length - 1) ∧
     (∀ k, k < exPath.length →
       (pathTriangulate exPath false 5 false).1.getD (2 * k) (0, 0)
         = exPath.getD k (0, 0) ∧
       (pathTriangulate exPath false 5 false).1.getD (2 * k + 1) (0, 0)
         = exPath.getD k (0, 0)) ∧
     (pathTriangulate exPath false 5 false).2.1.getD 0 (0, 0)
       = vneg (smulR (1 / 2)
           (segment_normal (exPath.getD 0 (0, 0)) (exPath.getD 1 (0, 0)))) ∧
     (pathTriangulate exPath false 5 false).2.1.getD 1 (0, 0)
       = smulR (1 / 2)
           (segment_normal (exPath.getD 0 (0, 0)) (exPath.getD 1 (0, 0))) ∧
     (pathTriangulate exPath false 5 false).2.1.getD
         (2 * exPath.length - 2) (0, 0)
       = vneg (smulR (1 / 2)
           (segment_normal (exPath.getD (exPath.length - 2) (0, 0))
             (exPath.getD (exPath.length - 1) (0, 0)))) ∧
     (pathTriangulate exPath false 5 false).2.1.getD
         (2 * exPath.length - 1) (0, 0)
       = smulR (1 / 2)
           (segment_normal (exPath.getD (exPath.length - 2) (0, 0))
             (exPath.getD (exPath.length - 1) (0, 0)))) := by
  have hh2 : 2 ≤ exPath.length := by
    norm_num [exPath]
  have hd0 : exPath.getD 0 (0, 0) ≠ exPath.getD 1 (0, 0) := by
    rw [show exPath.getD 0 (0, 0) = ((0 : ℝ), (0 : ℝ)) from rfl,
      show exPath.getD 1 (0, 0) = ((1 : ℝ), (0 : ℝ)) from rfl]
    norm_num [Prod.ext_iff]
  have hdL : exPath.getD (exPath.length - 2) (0, 0)
      ≠ exPath.getD (exPath.length - 1) (0, 0) := by
    rw [show exPath.getD (exPath.length - 2) (0, 0)
        = ((1 : ℝ), (0 : ℝ)) from rfl,
      show exPath.getD (exPath.length - 1) (0, 0)
        = ((2 : ℝ), (0 : ℝ)) from rfl]
    norm_num [Prod.ext_iff]
  have hml : ∀ i, 1 ≤ i → i ≤ exPath.length - 2 →
      ¬(norm2 (miterAt (openFullNormals exPath) i) > 5) := by
    intro i h1 hi
    rw [show exPath.length = 3 from rfl] at hi
    have hieq : i = 1 := by omega
    subst hieq
    rw [exPath_miterAt (by omega), exPath_mlen]
    norm_num
  exact ⟨⟨hh2, hd0, hdL, hml⟩,
    path_triangulate_open_spec exPath 5 hh2 hd0 hdL hml⟩

theorem exPath_smul_half : smulR (1 / 2) ((0 : ℝ), (-1 : ℝ))
    = ((0 : ℝ), (-(1 / 2) : ℝ)) := by
  unfold smulR
  norm_num

theorem exPath_vneg_half : vneg ((0 : ℝ), (-(1 / 2) : ℝ))
    = ((0 : ℝ), (1 / 2 : ℝ)) := by
  unfold vneg
  norm_num

theorem exPath_step0 :
    ptStep exPath (openFullNormals exPath) 5 false false ⟨[], [], [], 0⟩ 0
      = ⟨[(0, 0), (0, 0)], [(0, 1 / 2), (0, -(1 / 2))], [], 0⟩ := by
  rw [ptStep_open_first, exPath_miterAt (by omega), exPath_smul_half,
    exPath_vneg_half]
  rfl

theorem exPath_step1 :
    ptStep exPath (openFullNormals exPath) 5 false false
      ⟨[(0, 0), (0, 0)], [(0, 1 / 2), (0, -(1 / 2))], [], 0⟩ 1
      = ⟨[(0, 0), (0, 0), (1, 0), (1, 0)],
         [(0, 1 / 2), (0, -(1 / 2)), (0, 1 / 2), (0, -(1 / 2))],
         [(0, 1, 3), (0, 2, 3)], 2⟩ := by
  have hm := exPath_miterAt (i := 1) (by omega)
  simp only [ptStep, hm, exPath_mlen, exPath_smul_half, exPath_vneg_half]
  rw [if_neg (by norm_num),
    if_neg (by rw [show exPath.length = 3 from rfl]; norm_num),
    if_neg (by
      rintro (hc | hc)
      · exact Bool.false_ne_true hc
      · norm_num at hc)]
  rw [if_pos (by
    show crossR (vsub ((0 : ℝ), (-(1 / 2) : ℝ)) ((0 : ℝ), (0 : ℝ)))
        (vsub ((1 : ℝ), (0 : ℝ)) ((0 : ℝ), (0 : ℝ)))
      * crossR (vsub ((0 : ℝ), (-(1 / 2) : ℝ)) ((0 : ℝ), (0 : ℝ)))
        (vsub ((1 : ℝ), (0 : ℝ)) ((0 : ℝ), (0 : ℝ))) > 0
    norm_num [crossR, vsub])]
  rfl

theorem exPath_step2 :
    ptStep exPath (openFullNormals exPath) 5 false false
      ⟨[(0, 0), (0, 0), (1, 0), (1, 0)],
       [(0, 1 / 2), (0, -(1 / 2)), (0, 1 / 2), (0, -(1 / 2))],
       [(0, 1, 3), (0, 2, 3)], 2⟩ 2
      = ⟨[(0, 0), (0, 0), (1, 0), (1, 0), (2, 0), (2, 0)],
         [(0, 1 / 2), (0, -(1 / 2)), (0, 1 / 2), (0, -(1 / 2)),
          (0, 1 / 2), (0, -(1 / 2))],
         [(0, 1, 3), (0, 2, 3), (2, 3, 5), (2, 4, 5)], 2⟩ := by
  have hm := exPath_miterAt (i := 2) (by omega)
  simp only [ptStep, hm, exPath_mlen, exPath_smul_half, exPath_vneg_half]
  rw [if_neg (by norm_num),
    if_pos (by rw [show exPath.length = 3 from rfl]),
    if_neg (Bool.false_ne_true)]
  rw [if_pos (by
    show crossR (vsub ((0 : ℝ), (-(1 / 2) : ℝ)) ((1 : ℝ), (0 : ℝ)))
        (vsub ((2 : ℝ), (0 : ℝ)) ((1 : ℝ), (0 : ℝ)))
      * crossR (vsub ((0 : ℝ), (-(1 / 2) : ℝ)) ((1 : ℝ), (0 : ℝ)))
        (vsub ((2 : ℝ), (0 : ℝ)) ((1 : ℝ), (0 : ℝ))) > 0
    norm_num [crossR, vsub])]
  rfl

/-- Full concrete evaluation of the triangulator on the collinear open
three-point path. -/
theorem exPath_eval :
    pathTriangulate exPath false 5 false
      = ([(0, 0), (0, 0), (1, 0), (1, 0), (2, 0), (2, 0)],
         [(0, 1 / 2), (0, -(1 / 2)), (0, 1 / 2), (0, -(1 / 2)),
          (0, 1 / 2), (0, -(1 / 2))],
         [(0, 1, 3), (0, 2, 3), (2, 3, 5), (2, 4, 5)]) := by
  unfold pathTriangulate
  simp only [Bool.false_eq_true, if_false]
  rw [show List.range exPath.length = [0, 1, 2] from rfl,
    List.foldl_cons, exPath_step0, List.foldl_cons, exPath_step1,
    List.foldl_cons, exPath_step2, List.foldl_nil]

/-- Twice the signed area of a triangle (positive = counterclockwise). -/
def signedArea2 (a b c : RPt) : ℝ := crossR (vsub b a) (vsub c a)

/-- The stroke mesh vertex `j` of a triangulator output:
`centers + thickness*offsets` at thickness 1, as `_compute_meshes` builds
the rendered vertices. -/
noncomputable def ptVertex (out : List RPt × List RPt × List Tri)
    (j : Nat) : RPt :=
  vadd (out.1.getD j (0, 0)) (out.2.1.getD j (0, 0))

/-- Counterexample for C5: on the simple open path [(0,0),(1,0),(2,0)] the
first join quad's triangles [0,1,3] and [0,2,3] have signed areas of
opposite sign — the winding is not consistent and not every emitted
triangle has positive signed area. -/
theorem path_triangulate_winding_counterexample :
    (pathTriangulate exPath false 5 false).2.2.getD 0 (0, 0, 0)
      = (0, 1, 3) ∧
    (pathTriangulate exPath false 5 false).2.2.getD 1 (0, 0, 0)
      = (0, 2, 3) ∧
    0 < signedArea2 (ptVertex (pathTriangulate exPath false 5 false) 0)
        (ptVertex (pathTriangulate exPath false 5 false) 1)
        (ptVertex (pathTriangulate exPath false 5 false) 3) ∧
    signedArea2 (ptVertex (pathTriangulate exPath false 5 false) 0)
        (ptVertex (pathTriangulate exPath false 5 false) 2)
        (ptVertex (pathTriangulate exPath false 5 false) 3) < 0 := by
  rw [exPath_eval]
  refine ⟨rfl, rfl, ?_, ?_⟩
  · show 0 < signedArea2 (vadd ((0 : ℝ), (0 : ℝ)) ((0 : ℝ), (1 / 2 : ℝ)))
        (vadd ((0 : ℝ), (0 : ℝ)) ((0 : ℝ), (-(1 / 2) : ℝ)))
        (vadd ((1 : ℝ), (0 : ℝ)) ((0 : ℝ), (-(1 / 2) : ℝ)))
    norm_num [signedArea2, crossR, vsub, vadd]
  · show signedArea2 (vadd ((0 : ℝ), (0 : ℝ)) ((0 : ℝ), (1 / 2 : ℝ)))
        (vadd ((1 : ℝ), (0 : ℝ)) ((0 : ℝ), (1 / 2 : ℝ)))
        (vadd ((1 : ℝ), (0 : ℝ)) ((0 : ℝ), (-(1 / 2) : ℝ))) < 0
    norm_num [signedArea2, crossR, vsub, vadd]

/-- C5 (amended): the triangle winding alternates instead of being
consistent — on the open path [(0,0),(1,0),(2,0)] with thickness 1 the
emitted faces are [0,1,3], [0,2,3], [2,3,5], [2,4,5] with doubled signed
areas 1, -1, 1, -1: within each join quad the two triangles have opposite
orientations. -/
theorem path_triangulate_winding_alternates :
    (pathTriangulate exPath false 5 false).2.2
      = [(0, 1, 3), (0, 2, 3), (2, 3, 5), (2, 4, 5)] ∧
    signedArea2 (ptVertex (pathTriangulate exPath false 5 false) 0)
        (ptVertex (pathTriangulate exPath false 5 false) 1)
        (ptVertex (pathTriangulate exPath false 5 false) 3) = 1 ∧
    signedArea2 (ptVertex (pathTriangulate exPath false 5 false) 0)
        (ptVertex (pathTriangulate exPath false 5 false) 2)
        (ptVertex (pathTriangulate exPath false 5 false) 3) = -1 ∧
    signedArea2 (ptVertex (pathTriangulate exPath false 5 false) 2)
        (ptVertex (pathTriangulate exPath false 5 false) 3)
        (ptVertex (pathTriangulate exPath false 5 false) 5) = 1 ∧
    signedArea2 (ptVertex (pathTriangulate exPath false 5 false) 2)
        (ptVertex (pathTriangulate exPath false 5 false) 4)
        (ptVertex (pathTriangulate exPath false 5 false) 5) = -1 := by
  rw [exPath_eval]
  refine ⟨rfl, ?_, ?_, ?_, ?_⟩
  · show signedArea2 (vadd ((0 : ℝ), (0 : ℝ)) ((0 : ℝ), (1 / 2 : ℝ)))
        (vadd ((0 : ℝ), (0 : ℝ)) ((0 : ℝ), (-(1 / 2) : ℝ)))
        (vadd ((1 : ℝ), (0 : ℝ)) ((0 : ℝ), (-(1 / 2) : ℝ))) = 1
    norm_num [signedArea2, crossR, vsub, vadd]
  · show signedArea2 (vadd ((0 : ℝ), (0 : ℝ)) ((0 : ℝ), (1 / 2 : ℝ)))
        (vadd ((1 : ℝ), (0 : ℝ)) ((0 : ℝ), (1 / 2 : ℝ)))
        (vadd ((1 : ℝ), (0 : ℝ)) ((0 : ℝ), (-(1 / 2) : ℝ))) = -1
    norm_num [signedArea2, crossR, vsub, vadd]
  · show signedArea2 (vadd ((1 : ℝ), (0 : ℝ)) ((0 : ℝ), (1 / 2 : ℝ)))
        (vadd ((1 : ℝ), (0 : ℝ)) ((0 : ℝ), (-(1 / 2) : ℝ)))
        (vadd ((2 : ℝ), (0 : ℝ)) ((0 : ℝ), (-(1 / 2) : ℝ))) = 1
    norm_num [signedArea2, crossR, vsub, vadd]
  · show signedArea2 (vadd ((1 : ℝ), (0 : ℝ)) ((0 : ℝ), (1 / 2 : ℝ)))
        (vadd ((2 : ℝ), (0 : ℝ)) ((0 : ℝ), (1 / 2 : ℝ)))
        (vadd ((2 : ℝ), (0 : ℝ)) ((0 : ℝ), (-(1 / 2) : ℝ))) = -1
    norm_num [signedArea2, crossR, vsub, vadd]

theorem segment_normal_same (p : RPt) : segment_normal p p = (0, 0) := by
  unfold segment_normal vsub
  dsimp only
  rw [Prod.ext_iff]
  constructor <;> simp

theorem smul_half_zero : smulR (1 / 2) ((0 : ℝ), (0 : ℝ))
    = ((0 : ℝ), (0 : ℝ)) := by
  unfold smulR
  norm_num

theorem vneg_zero : vneg ((0 : ℝ), (0 : ℝ)) = ((0 : ℝ), (0 : ℝ)) := by
  unfold vneg
  norm_num

theorem dup_normals (p : RPt) :
    openNormals [p, p] = [(0, 0), (0, 0)] := by
  have h : openNormals [p, p]
      = [segment_normal p p, vneg (segment_normal p p)] := rfl
  rw [h, segment_normal_same, vneg_zero]

theorem dup_fn (p : RPt) :
    openFullNormals [p, p] = [(0, 0), (0, 0), (0, 0)] := by
  unfold openFullNormals
  rw [dup_normals]
  rfl

theorem dup_miterAt (p : RPt) {i : Nat} (hi : i ≤ 1) :
    miterAt (openFullNormals [p, p]) i = (0, 0) := by
  rw [dup_fn]
  unfold miterAt
  interval_cases i <;>
  · rw [if_pos (by norm_num)]
    dsimp only
    norm_num [vadd, smulR, dotR, List.getD]

theorem dup_step0 (p : RPt) :
    ptStep [p, p] (openFullNormals [p, p]) 5 false false ⟨[], [], [], 0⟩ 0
      = ⟨[p, p], [(0, 0), (0, 0)], [], 0⟩ := by
  rw [ptStep_open_first, dup_miterAt p (by omega), smul_half_zero,
    vneg_zero]
  rfl

theorem dup_step1 (p : RPt) :
    ptStep [p, p] (openFullNormals [p, p]) 5 false false
      ⟨[p, p], [(0, 0), (0, 0)], [], 0⟩ 1
      = ⟨[p, p, p, p], [(0, 0), (0, 0), (0, 0), (0, 0)],
         [(0, 1, 3), (1, 2, 3)], 0⟩ := by
  have hm := dup_miterAt p (i := 1) (by omega)
  simp only [ptStep, hm, smul_half_zero, vneg_zero]
  rw [if_neg (by norm_num), if_pos (by norm_num),
    if_neg Bool.false_ne_true]
  rw [if_neg (by
    show ¬(crossR (vsub ((0 : ℝ), (0 : ℝ)) p) (vsub p p)
      * crossR (vsub ((0 : ℝ), (0 : ℝ)) p) (vsub p p) > 0)
    simp [crossR, vsub, sub_self])]
  rfl

/-- Counterexample for C6: on a path with two equal consecutive points the
triangulation does not abort — no `DegenerateGeometryError` exists in the
code — it silently computes the degenerate zero normal (NaN in floating
point; `(0,0)` under the Lean `x / 0 = 0` convention) and returns a full
mesh built from it. -/
theorem degenerate_path_counterexample :
    segment_normal ((0, 0) : RPt) (0, 0) = (0, 0) ∧
    pathTriangulate [((0 : ℝ), (0 : ℝ)), (0, 0)] false 5 false
      = ([(0, 0), (0, 0), (0, 0), (0, 0)],
         [(0, 0), (0, 0), (0, 0), (0, 0)],
         [(0, 1, 3), (1, 2, 3)]) := by
  constructor
  · exact segment_normal_same (0, 0)
  · unfold pathTriangulate
    simp only [Bool.false_eq_true, if_false]
    rw [show List.range (([((0 : ℝ), (0 : ℝ)), (0, 0)] : List RPt)).length
        = [0, 1] from rfl,
      List.foldl_cons, dup_step0, List.foldl_cons, dup_step1,
      List.foldl_nil]

/-- C6 (amended): `path_triangulate` performs no validation of duplicate
consecutive points: for every point `p`, `segment_normal p p` silently
produces the degenerate zero normal (NaN in floating point) and the
triangulation of `[p, p]` returns normally, committing a fully degenerate
stroke mesh; no exception is raised and no `DegenerateGeometryError` exists
in the code. -/
theorem degenerate_path_returns (p : RPt) :
    segment_normal p p = (0, 0) ∧
    pathTriangulate [p, p] false 5 false
      = ([p, p, p, p], [(0, 0), (0, 0), (0, 0), (0, 0)],
         [(0, 1, 3), (1, 2, 3)]) := by
  constructor
  · exact segment_normal_same p
  · unfold pathTriangulate
    simp only [Bool.false_eq_true, if_false]
    rw [show List.range (([p, p] : List RPt)).length = [0, 1] from rfl,
      List.foldl_cons, dup_step0, List.foldl_cons, dup_step1,
      List.foldl_nil]

/-- `np.linspace(0, 2π, n)`: the `k`-th of `n` evenly spaced samples from 0
to 2π, both endpoints included. -/
noncomputable def linspaceTheta (n k : Nat) : ℝ :=
  2 * Real.pi * k / ((n : ℝ) - 1)

/-- `ShapesData._generate_ellipse(corners, num_segments)` as an indexed
vertex function: vertex 0 is the center (the mean of the two corners);
vertex `j` (1 ≤ j ≤ n) samples the ellipse at angle `linspace(0, 2π, n)[j-1]`
with per-axis radii measured from corner 0 to the center. -/
noncomputable def generateEllipseVertex (corners : RPt × RPt)
    (n j : Nat) : RPt :=
  let center : RPt := ((corners.1.1 + corners.2.1) / 2,
    (corners.1.2 + corners.2.2) / 2)
  let xr := |corners.1.1 - center.1|
  let yr := |corners.1.2 - center.2|
  if j = 0 then center
  else (center.1 + xr * Real.cos (linspaceTheta n (j - 1)),
        center.2 + yr * Real.sin (linspaceTheta n (j - 1)))

/-- The ellipse fill faces of `_add_ellipses`: the fan `[0, i+1, i+2]` for
`i < n`, with the last row's third entry rewritten to 1
(`fill_faces[-1, 2] = 1`); since the last row is `[0, n, n+1]` this makes
it `[0, n, 1]`. -/
def ellipseFillFaces (n : Nat) : List Tri :=
  ((List.range n).map (fun i => (0, i + 1, i + 2))).set (n - 1) (0, n, 1)

theorem signedArea2_degen (a b : RPt) : signedArea2 a b b = 0 := by
  unfold signedArea2 crossR vsub
  ring

/-- C10: the 100-segment ellipse samples angles from 0 to 2π inclusive, so
boundary vertex 100 coincides exactly (in real arithmetic) with boundary
vertex 1; the fan's last fill face is [0, 100, 1] and has zero signed area;
only 99 distinct boundary segments remain. -/
theorem generate_ellipse_degenerate (corners : RPt × RPt) :
    linspaceTheta 100 0 = 0 ∧
    linspaceTheta 100 99 = 2 * Real.pi ∧
    generateEllipseVertex corners 100 100
      = generateEllipseVertex corners 100 1 ∧
    (ellipseFillFaces 100).getD 99 (0, 0, 0) = (0, 100, 1) ∧
    signedArea2 (generateEllipseVertex corners 100 0)
      (generateEllipseVertex corners 100 100)
      (generateEllipseVertex corners 100 1) = 0 ∧
    (ellipseFillFaces 100).length = 100 := by
  have ht0 : linspaceTheta 100 0 = 0 := by
    unfold linspaceTheta
    norm_num
  have ht99 : linspaceTheta 100 99 = 2 * Real.pi := by
    unfold linspaceTheta
    push_cast
    field_simp
    ring
  have hv : generateEllipseVertex corners 100 100
      = generateEllipseVertex corners 100 1 := by
    unfold generateEllipseVertex
    rw [if_neg (by norm_num), if_neg (by norm_num)]
    rw [show (100 : Nat) - 1 = 99 from rfl, show (1 : Nat) - 1 = 0 from rfl,
      ht99, ht0]
    rw [Real.cos_two_pi, Real.sin_two_pi, Real.cos_zero, Real.sin_zero]
  refine ⟨ht0, ht99, hv, by decide, ?_, by decide⟩
  rw [hv]
  exact signedArea2_degen _ _

end Napari



